import Mathlib

/-!
Verification development for the RepoMind analysis pipeline.

The development shallowly embeds the pieces of the repository that the
frozen claims are about:

* `src/app/analysis/ts_parser/extract_calls.js` — the TypeScript call
  event extractor (`visit`), embedded over an explicit syntax-tree type
  with character spans into the source text;
* `src/frontend/src/components/diagrams/sequence/AsyncSequenceDiagram.tsx`
  — the per-track region bookkeeping of the async renderer;
* `src/frontend/src/components/diagrams/sequence/ConditionalSequenceDiagram.tsx`
  — the lifeline / block skipping logic of the conditional renderer;
* the `structureService` fetch wrappers and the `TreeSearch` search filter;
* the Interaction Model Assembler and the dependency-cycle detector, which
  are not part of the sources under `src/` and are therefore modelled from
  the specification text (their definitions say so in their doc comments).
-/

namespace RepoMind

/-- A half-open character span `[pos, endPos)` into the source text, as
carried by TypeScript AST nodes (`node.pos` includes leading trivia). -/
structure Span where
  pos : Nat
  endPos : Nat
deriving DecidableEq

/-- The syntactic kinds of AST nodes that `extract_calls.js` distinguishes:
a `CallExpression` whose callee is a `PropertyAccessExpression`, any other
`CallExpression`, a `NewExpression`, an `AwaitExpression`, and everything
else. -/
inductive NodeKind where
  | callProp
  | callOther
  | newExpr
  | awaitExpr
  | other
deriving DecidableEq

/-- A parsed syntax-tree node: kind, start position (`node.pos`), the span of
the receiver expression (`node.expression.expression` of a method call), the
method name text, the class-name text (`node.expression.getText()` of a
`new`), the argument spans, and the children in source order. -/
inductive Tree where
  | mk : NodeKind → Nat → Span → String → String → List Span → List Tree → Tree

def Tree.kind : Tree → NodeKind
  | .mk k _ _ _ _ _ _ => k

def Tree.pos : Tree → Nat
  | .mk _ p _ _ _ _ _ => p

def Tree.children : Tree → List Tree
  | .mk _ _ _ _ _ _ ch => ch

/-- JavaScript-style whitespace test used by `String.prototype.trim`. -/
def isWS (c : Char) : Bool :=
  c = ' ' || c = '\t' || c = '\n' || c = '\r'

/-- `sourceCode.substring(a, b)`: the characters in `[a, b)`. -/
def substring (src : List Char) (a b : Nat) : List Char :=
  (src.drop a).take (b - a)

/-- Drop trailing JavaScript whitespace. -/
def trimRight (s : List Char) : List Char :=
  (s.reverse.dropWhile isWS).reverse

/-- JavaScript `String.prototype.trim`: drop leading and trailing whitespace. -/
def trim (s : List Char) : List Char :=
  trimRight (s.dropWhile isWS)

/-- `sourceCode.substring(arg.pos, arg.end).trim()` — how `extract_calls.js`
captures one call argument. -/
def captureArg (src : List Char) (s : Span) : List Char :=
  trim (substring src s.pos s.endPos)

/-- One raw event as pushed onto `methodCalls` by `extract_calls.js`.
Fields are `Option`-valued to record which JSON keys are present on the
emitted object; keys the script never writes stay `none`. -/
structure RawEvent where
  is_constructor : Option Bool := none
  caller : Option (List Char) := none
  method : Option String := none
  className : Option String := none
  args : List (List Char) := []
  pos : Nat := 0
  is_async : Option Bool := none
  in_try : Option Bool := none
  in_loop : Option Bool := none
  in_conditional : Option Bool := none
deriving DecidableEq

/-- The object pushed for a method call (`CallExpression` with a
`PropertyAccessExpression` callee): receiver text, method name, trimmed
argument snippets, position, and `is_async` true iff the direct parent is
an `AwaitExpression`. -/
def methodEvent (src : List Char) (pAwait : Bool) (p : Nat) (callerSpan : Span)
    (m : String) (argSpans : List Span) : RawEvent :=
  { caller := some (substring src callerSpan.pos callerSpan.endPos),
    method := some m,
    args := argSpans.map (captureArg src),
    pos := p,
    is_async := some pAwait }

/-- The object pushed for a constructor call (`NewExpression`): class name,
trimmed argument snippets, position.  No async or context flags. -/
def ctorEvent (src : List Char) (p : Nat) (cn : String) (argSpans : List Span) :
    RawEvent :=
  { is_constructor := some true,
    className := some cn,
    args := argSpans.map (captureArg src),
    pos := p }

/-- The events the `visit` function pushes at one node, before recursing. -/
def emitNode (src : List Char) (pAwait : Bool) : Tree → List RawEvent
  | .mk k p cspan m cn argSpans _ =>
    (if k = NodeKind.callProp then [methodEvent src pAwait p cspan m argSpans] else [])
      ++ (if k = NodeKind.newExpr then [ctorEvent src p cn argSpans] else [])

mutual

/-- The `visit` function of `extract_calls.js`: push the current node's
events, then `ts.forEachChild(node, visit)`.  The `pAwait` argument records
whether the parent node is an `AwaitExpression`. -/
def visit (src : List Char) (pAwait : Bool) : Tree → List RawEvent
  | .mk k p cspan m cn argSpans ch =>
    emitNode src pAwait (.mk k p cspan m cn argSpans ch)
      ++ visitList src (decide (k = NodeKind.awaitExpr)) ch

def visitList (src : List Char) (pAwait : Bool) : List Tree → List RawEvent
  | [] => []
  | t :: ts => visit src pAwait t ++ visitList src pAwait ts

end

mutual

/-- Depth-first pre-order node list, each node paired with whether its
parent is an `AwaitExpression`. -/
def preorderP (pAwait : Bool) : Tree → List (Bool × Tree)
  | .mk k p cspan m cn argSpans ch =>
    (pAwait, Tree.mk k p cspan m cn argSpans ch)
      :: preorderPList (decide (k = NodeKind.awaitExpr)) ch

def preorderPList (pAwait : Bool) : List Tree → List (Bool × Tree)
  | [] => []
  | t :: ts => preorderP pAwait t ++ preorderPList pAwait ts

end

/-- Whether a node kind is a call/construction site (emits an event). -/
def isSite (k : NodeKind) : Bool :=
  decide (k = NodeKind.callProp) || decide (k = NodeKind.newExpr)

mutual

/-- Number of call/construction sites in a source unit. -/
def siteCount : Tree → Nat
  | .mk k _ _ _ _ _ ch => (if isSite k then 1 else 0) + siteCountList ch

def siteCountList : List Tree → Nat
  | [] => 0
  | t :: ts => siteCount t + siteCountList ts

end

mutual

/-- Largest start position occurring in a subtree. -/
def maxPos : Tree → Nat
  | .mk _ p _ _ _ _ ch => max p (maxPosList ch)

def maxPosList : List Tree → Nat
  | [] => 0
  | t :: ts => max (maxPos t) (maxPosList ts)

end

/-- Sibling subtrees are position-separated: each child's whole subtree
lies before the next child's start position. -/
def chainOK : List Tree → Bool
  | [] => true
  | [_] => true
  | a :: b :: r => (decide (maxPos a ≤ b.pos)) && chainOK (b :: r)

mutual

/-- Position well-formedness of a parsed tree, as guaranteed by the
TypeScript parser: a node starts no later than any of its children, and
sibling subtrees appear in source order. -/
def posWF : Tree → Bool
  | .mk _ p _ _ _ _ ch =>
    ch.all (fun c => decide (p ≤ c.pos)) && chainOK ch && posWFList ch

def posWFList : List Tree → Bool
  | [] => true
  | t :: ts => posWF t && posWFList ts

end

/-- The spec's words for claim C6: the exact source substring of an
argument — the characters of the argument's span in the input file,
untouched.  Kept separate from `captureArg` (the code's behaviour) so the
two can be compared. -/
def exactArgText (src : List Char) (s : Span) : List Char :=
  substring src s.pos s.endPos

/-- Sample source text `obj.m( x)` for concrete evaluation. -/
def srcSample : List Char := "obj.m( x)".toList

/-- Sample method-call node: `obj.m( x)` — receiver span `[0,3)`, one
argument span `[6,8)` whose text `" x"` begins with the space that follows
the opening parenthesis (leading trivia). -/
def callNodeSample : Tree :=
  Tree.mk NodeKind.callProp 0 ⟨0, 3⟩ "m" "" [⟨6, 8⟩] []

/-- Sample constructor node `new C()` placed after the call. -/
def ctorNodeSample : Tree :=
  Tree.mk NodeKind.newExpr 9 ⟨0, 0⟩ "" "C" [] []

/-- Sample source unit containing one method call and one construction. -/
def treeSample : Tree :=
  Tree.mk NodeKind.other 0 ⟨0, 0⟩ "" "" [] [callNodeSample, ctorNodeSample]

/-- Modelled from the spec: a resolved call event as consumed by the
Interaction Model Assembler (§4.3).  The assembler itself is not among the
sources under `src/`; this model follows §4.3 of the specification. -/
structure AsmEvent where
  fromName : String
  toName : String
  methodName : String
deriving DecidableEq

/-- Modelled from the spec: one input item of the assembler's single
forward pass — a resolved event, or an explicit region-entry/exit marker
(§4.3 allows region boundaries to be supplied as explicit markers). -/
inductive Item where
  | event : AsmEvent → Item
  | enterRegion : String → String → Bool → Item
  | exitRegion : Item
deriving DecidableEq

/-- Modelled from the spec: a block-stack entry
`{type, condition, start_message_id, nesting_level, is_loop}` (§4.3). -/
structure BlockEntry where
  btype : String
  cond : String
  start_message_id : Nat
  nesting_level : Nat
  is_loop : Bool
deriving DecidableEq

/-- Modelled from the spec: an emitted ConditionalBlock (§3). -/
structure Block where
  btype : String
  cond : String
  start_message_id : Nat
  end_message_id : Nat
  nesting_level : Nat
  is_loop : Bool
deriving DecidableEq

/-- Modelled from the spec: an assembled Message (§3); only the fields the
claims mention are kept. -/
structure Message where
  id : Nat
  fromName : String
  toName : String
  methodName : String
  in_conditional_block : Bool
  is_conditional : Bool
deriving DecidableEq

/-- Modelled from the spec: insertion-ordered participant registration
(first appearance wins, §3). -/
def register (ps : List String) (n : String) : List String :=
  if n ∈ ps then ps else ps ++ [n]

/-- Modelled from the spec: the assembler's running state (§4.3), plus the
`aborted` flag of the MalformedBlockState policy (§7). -/
structure AsmState where
  nextId : Nat := 0
  participants : List String := []
  messages : List Message := []
  stack : List BlockEntry := []
  blocks : List Block := []
  pendingCond : Bool := false
  aborted : Bool := false
deriving DecidableEq

/-- Modelled from the spec: one step of the assembler's forward pass
(§4.3).  An event registers its participants and emits a message with the
next monotonic id; a region entry pushes a block-stack entry whose
`start_message_id` is the id of the next message to be emitted and whose
`nesting_level` is the stack depth before the push; a region exit pops the
top entry and emits the block with `end_message_id` the id of the last
message emitted while it was open — discarding it when no message was
emitted during its lifetime; a region exit with no open entry aborts the
pass (MalformedBlockState, §7), keeping what was assembled so far. -/
def stepItem (s : AsmState) (it : Item) : AsmState :=
  if s.aborted then s
  else
    match it with
    | .event e =>
      let ps := register (register s.participants e.fromName) e.toName
      { s with
        participants := ps,
        messages := s.messages ++
          [{ id := s.nextId, fromName := e.fromName, toName := e.toName,
             methodName := e.methodName,
             in_conditional_block := !s.stack.isEmpty,
             is_conditional := s.pendingCond }],
        nextId := s.nextId + 1,
        pendingCond := false }
    | .enterRegion ty c il =>
      { s with
        stack := { btype := ty, cond := c, start_message_id := s.nextId,
                   nesting_level := s.stack.length, is_loop := il } :: s.stack,
        pendingCond := true }
    | .exitRegion =>
      match s.stack with
      | [] => { s with aborted := true }
      | top :: rest =>
        if top.start_message_id < s.nextId then
          { s with
            stack := rest,
            pendingCond := false,
            blocks := s.blocks ++
              [{ btype := top.btype, cond := top.cond,
                 start_message_id := top.start_message_id,
                 end_message_id := s.nextId - 1,
                 nesting_level := top.nesting_level,
                 is_loop := top.is_loop }] }
        else
          { s with stack := rest, pendingCond := false }

/-- Modelled from the spec: the whole assembly pass over one unit. -/
def assemble (items : List Item) : AsmState :=
  items.foldl stepItem {}

def isEnter : Item → Bool
  | .enterRegion _ _ _ => true
  | _ => false

def isExit : Item → Bool
  | .exitRegion => true
  | _ => false

def isEvent : Item → Bool
  | .event _ => true
  | _ => false

/-- Number of region-entry markers in an item list. -/
def countEnter (l : List Item) : Nat := l.countP isEnter

/-- Number of region-exit markers in an item list. -/
def countExit (l : List Item) : Nat := l.countP isExit

/-- Starting with `d` open regions, no region exit ever arrives with no
matching open region (well-balanced input). -/
def noUnderflow : Nat → List Item → Bool
  | _, [] => true
  | d, it :: r =>
    match it with
    | .enterRegion _ _ _ => noUnderflow (d + 1) r
    | .exitRegion => decide (0 < d) && noUnderflow (d - 1) r
    | .event _ => noUnderflow d r

/-- The extractor feeds the assembler call/construction events only — no
region markers (`extract_calls.js` emits nothing else). -/
def toItem (e : RawEvent) : Item :=
  Item.event
    { fromName := (e.caller.getD []).asString,
      toName := e.className.getD (e.method.getD ""),
      methodName := e.method.getD "" }

/-- Extractor followed by the assembler on one source unit. -/
def pipeline (src : List Char) (t : Tree) : AsmState :=
  assemble ((visit src false t).map toItem)

/-- Sample resolved event for concrete evaluation. -/
def evSample : AsmEvent :=
  { fromName := "main", toName := "Svc", methodName := "f" }

/-- Sample assembler input: one `if` region enclosing one event. -/
def sampleItems : List Item :=
  [Item.enterRegion "if" "cond" false, Item.event evSample, Item.exitRegion]

/-- The block the assembler emits for `sampleItems`. -/
def sampleBlock : Block :=
  { btype := "if", cond := "cond", start_message_id := 0,
    end_message_id := 0, nesting_level := 0, is_loop := false }

/-- A message as consumed by the async sequence renderer
(`AsyncSequenceDiagram.tsx`): lifeline endpoints and the optional
`creates_track` / `returns_to_track` string fields. -/
structure AMessage where
  fromName : String
  toName : String
  creates_track : Option String := none
  returns_to_track : Option String := none
deriving DecidableEq

/-- JavaScript truthiness of an optional string field (`undefined` and the
empty string are falsy). -/
def truthyS : Option String → Bool
  | some s => !s.isEmpty
  | none => false

/-- An async region rendered behind a track
(`{ startY, endY, name }` in `AsyncSequenceDiagram.tsx`). -/
structure ARegion where
  startY : Nat
  endY : Nat
  name : String
deriving DecidableEq

/-- The renderer's per-track mutable state: the running y coordinate, the
candidate region start y, the currently open region name (`''` = none),
the regions pushed so far, and the messages actually rendered. -/
structure TrackState where
  currentY : Nat
  regionStartY : Nat := 0
  currentRegion : String := ""
  regions : List ARegion := []
  rendered : List AMessage := []
deriving DecidableEq

/-- The `messageHeight` constant of the renderers. -/
def messageHeight : Nat := 50

/-- One iteration of the per-track message loop of
`AsyncSequenceDiagram.tsx` (lines 304–425): skip the message when either
lifeline is missing; otherwise open a region on a truthy `creates_track`,
close the open region on a truthy `returns_to_track` (ending one message
height below the current y), render the message and advance the y
coordinate. -/
def stepTrackMsg (ls : List String) (st : TrackState) (m : AMessage) :
    TrackState :=
  if m.fromName ∈ ls ∧ m.toName ∈ ls then
    let st1 :=
      if truthyS m.creates_track then
        { st with regionStartY := st.currentY,
                  currentRegion := m.creates_track.getD "" }
      else st
    let st2 :=
      if truthyS m.returns_to_track then
        if st1.currentRegion ≠ "" then
          { st1 with
            regions := st1.regions ++
              [{ startY := st1.regionStartY,
                 endY := st1.currentY + messageHeight,
                 name := st1.currentRegion }],
            currentRegion := "" }
        else st1
      else st1
    { st2 with currentY := st2.currentY + messageHeight,
               rendered := st2.rendered ++ [m] }
  else st

/-- After the message loop, any region still open is closed at the current
y — the end of the last rendered message slot (lines 427–434). -/
def closeTrack (st : TrackState) : TrackState :=
  if st.currentRegion ≠ "" then
    { st with
      regions := st.regions ++
        [{ startY := st.regionStartY, endY := st.currentY,
           name := st.currentRegion }],
      currentRegion := "" }
  else st

/-- The message loop of one track, folded from the track's base y. -/
def trackLoop (ls : List String) (y0 : Nat) (msgs : List AMessage) :
    TrackState :=
  msgs.foldl (stepTrackMsg ls) { currentY := y0 }

/-- Rendering one execution track: fold the message loop from the track's
base y, then close any open region. -/
def renderTrack (ls : List String) (y0 : Nat) (msgs : List AMessage) :
    TrackState :=
  closeTrack (trackLoop ls y0 msgs)

/-- The open/closed spawn-region flag after processing a message list,
mirroring the renderer's `currentRegion` truthiness. -/
def altFlag : Bool → List AMessage → Bool
  | opened, [] => opened
  | opened, m :: r =>
    altFlag
      (if truthyS m.returns_to_track then false
       else (truthyS m.creates_track || opened)) r

/-- Spawn/join alternation within one track's message list: a new spawn
never arrives while a spawn region is already open.  Assembled message
sequences satisfy this — after a spawn, messages up to the join belong to
the spawned track, not to the spawning one. -/
def altOK : Bool → List AMessage → Bool
  | _, [] => true
  | opened, m :: r =>
    if truthyS m.creates_track && opened then false
    else
      altOK
        (if truthyS m.returns_to_track then false
         else (truthyS m.creates_track || opened)) r

/-- Sample spawn message for concrete evaluation of the async renderer. -/
def spawnMsgSample : AMessage :=
  { fromName := "main", toName := "W", creates_track := some "task1" }

/-- Sample join message matching `spawnMsgSample`. -/
def joinMsgSample : AMessage :=
  { fromName := "W", toName := "main", returns_to_track := some "task1" }

/-- Sample track message list: one spawn, then its join. -/
def trackMsgsSample : List AMessage := [spawnMsgSample, joinMsgSample]

/-- Sample participant (lifeline) list. -/
def lifelinesSample : List String := ["main", "W"]

/-- A message as consumed by the conditional sequence renderer
(`ConditionalSequenceDiagram.tsx`): lifeline endpoints and the id recorded
into `messagePositions`. -/
structure CMessage where
  fromName : String
  toName : String
  id : String
deriving DecidableEq

/-- A conditional block as consumed by the conditional renderer: the two
message ids that bracket it. -/
structure CBlock where
  start_message_id : String
  end_message_id : String
deriving DecidableEq

/-- The message loop of `ConditionalSequenceDiagram.tsx` (lines 336–448):
a message referencing an unregistered lifeline is skipped (no link, no
recorded position, no y advance); a rendered message records `(id, y)`
into `messagePositions` and advances the y cursor. -/
def renderCondMsgs (ps : List String) :
    List CMessage → Nat → List (String × Nat)
  | [], _ => []
  | m :: r, y =>
    if m.fromName ∈ ps ∧ m.toName ∈ ps then
      (m.id, y) :: renderCondMsgs ps r (y + messageHeight)
    else renderCondMsgs ps r y

/-- Lookup into `messagePositions`; a JavaScript object keyed by message
id keeps the last write for a duplicated id. -/
def posLookup (l : List (String × Nat)) (k : String) : Option Nat :=
  ((l.filter (fun e => decide (e.1 = k))).getLast?).map Prod.snd

/-- The block loop of `ConditionalSequenceDiagram.tsx` (lines 451–521): a
block whose start or end message id has no recorded position is skipped;
every other block is rendered. -/
def renderCondBlocks (positions : List (String × Nat))
    (blocks : List CBlock) : List CBlock :=
  blocks.filter (fun b =>
    (posLookup positions b.start_message_id).isSome
      && (posLookup positions b.end_message_id).isSome)

/-- An HTTP response as consumed by `structureService`: the `ok` flag,
`statusText`, and the outcome of `response.json()` — either the parsed
body or a parse failure carrying its own error message. -/
structure FetchResponse (α : Type) where
  ok : Bool
  statusText : String
  json : Except String α

/-- `error.detail || fallback`: JavaScript uses the fallback when `detail`
is absent or empty (falsy). -/
def detailOrFallback (detail : Option String) (fb : String) : String :=
  match detail with
  | some d => if d.isEmpty then fb else d
  | none => fb

/-- The shared response handling of `structureService` (repository file
`src/unnamed/part_002`): return the parsed body when `response.ok`
(propagating a parse failure as-is); otherwise parse the body —
substituting `{}` when parsing fails — and throw
`error.detail || fallback`. -/
def handleServiceResponse {α : Type} (detailOf : α → Option String)
    (fallback : String) (resp : FetchResponse α) : Except String α :=
  if resp.ok then resp.json
  else
    match resp.json with
    | .ok v => .error (detailOrFallback (detailOf v) fallback)
    | .error _ => .error (detailOrFallback none fallback)

/-- `structureService.getRepositoryStructure` response handling. -/
def getRepositoryStructure {α : Type} (detailOf : α → Option String)
    (resp : FetchResponse α) : Except String α :=
  handleServiceResponse detailOf
    ("Failed to fetch repository structure: " ++ resp.statusText) resp

/-- `structureService.getRepositoryDependencies` response handling. -/
def getRepositoryDependencies {α : Type} (detailOf : α → Option String)
    (resp : FetchResponse α) : Except String α :=
  handleServiceResponse detailOf
    ("Failed to fetch repository dependencies: " ++ resp.statusText) resp

/-- A tree node as consumed by `TreeSearch` (`name` and `path` are the
searched fields). -/
structure SNode where
  name : List Char
  path : List Char
deriving DecidableEq

/-- JavaScript `toLowerCase` over the character list. -/
def lowerStr (s : List Char) : List Char := s.map Char.toLower

/-- JavaScript `String.prototype.includes`: contiguous substring
containment. -/
def containsSub (hay needle : List Char) : Bool :=
  match hay with
  | [] => needle.isEmpty
  | _ :: t => needle.isPrefixOf hay || containsSub t needle

/-- The match predicate of `performSearch`: the node's name or path
contains the term, case-insensitively. -/
def nodeMatches (term : List Char) (n : SNode) : Bool :=
  containsSub (lowerStr n.name) (lowerStr term)
    || containsSub (lowerStr n.path) (lowerStr term)

/-- `performSearch` of `TreeSearch.tsx` (lines 30–47): a blank search term
yields no results; otherwise filter the node list by the case-insensitive
containment test. -/
def performSearch (nodes : List SNode) (term : List Char) : List SNode :=
  if (trim term).isEmpty then []
  else nodes.filter (nodeMatches term)

/-- Sample tree node for concrete evaluation of the search. -/
def nodeSample : SNode :=
  { name := "Main.ts".toList, path := "src/Main.ts".toList }

/-- Modelled from the spec: a dependency edge with its
`internal`/`external` type tag (§3, §4.4).  The Dependency Graph
Assembler's cycle detection is not among the sources under `src/`; the
detector below follows §4.4 of the specification. -/
structure DepEdge where
  source : String
  target : String
  etype : String
deriving DecidableEq

/-- The internal-edge-only graph over which cycle detection runs (§4.4). -/
def internalPairs (es : List DepEdge) : List (String × String) :=
  (es.filter (fun e => decide (e.etype = "internal"))).map
    (fun e => (e.source, e.target))

/-- Adjacency in an edge-pair list. -/
def adjE (es : List (String × String)) (u v : String) : Bool :=
  decide ((u, v) ∈ es)

/-- Every edge endpoint is a known node. -/
def edgesClosed (ns : List String) (es : List (String × String)) : Bool :=
  es.all (fun p => decide (p.1 ∈ ns) && decide (p.2 ∈ ns))

/-- Bounded reachability: a nonempty edge path of at most `n` edges whose
intermediate nodes are drawn from `ns`. -/
def reachN (es : List (String × String)) (ns : List String) :
    Nat → String → String → Bool
  | 0, _, _ => false
  | n + 1, u, v =>
    adjE es u v || ns.any (fun w => adjE es u w && reachN es ns n w v)

/-- Modelled from the spec: reachability with the node-count bound — on a
graph whose edges stay within `ns`, any reachable node is reachable by a
duplicate-free path, so the bound loses nothing. -/
def reachB (ns : List String) (es : List (String × String)) (u v : String) :
    Bool :=
  reachN es ns (ns.length + 1) u v

/-- Mutual bounded reachability (same strongly-connected component). -/
def mutualB (ns : List String) (es : List (String × String)) (u v : String) :
    Bool :=
  reachB ns es u v && reachB ns es v u

/-- Modelled from the spec: the SCC of `u`, listed in node discovery
order (§4.4). -/
def sccOf (ns : List String) (es : List (String × String)) (u : String) :
    List String :=
  ns.filter (fun v => decide (v = u) || mutualB ns es u v)

/-- Modelled from the spec: a node lies on a cycle — it has a self-loop or
belongs to an SCC of size greater than one (§4.4). -/
def inCyc (ns : List String) (es : List (String × String)) (u : String) :
    Bool :=
  adjE es u u || ns.any (fun v => decide (v ≠ u) && mutualB ns es u v)

/-- Modelled from the spec: walk the nodes in discovery order; report each
not-yet-covered cyclic node's SCC as one Cycle (§4.4). -/
def cyclesAux (ns : List String) (es : List (String × String)) :
    List String → List (List String) → List (List String)
  | [], acc => acc
  | u :: rest, acc =>
    if inCyc ns es u && !(acc.any (fun c => decide (u ∈ c))) then
      cyclesAux ns es rest (acc ++ [sccOf ns es u])
    else cyclesAux ns es rest acc

/-- Modelled from the spec: dependency cycle detection over the
internal-edge-only graph (§4.4). -/
def detectCycles (ns : List String) (es : List DepEdge) :
    List (List String) :=
  cyclesAux ns (internalPairs es) ns []

/-- A walk in the edge list: `isWalk es u l v` follows edges
`u → l₁ → … → lₖ → v`. -/
def isWalk (es : List (String × String)) :
    String → List String → String → Prop
  | u, [], v => adjE es u v = true
  | u, w :: l, v => adjE es u w = true ∧ isWalk es w l v

/-- Unbounded reachability: some walk connects the two nodes. -/
def Reaches (es : List (String × String)) (u v : String) : Prop :=
  ∃ l : List String, isWalk es u l v

/-- Mutual unbounded reachability. -/
def MutualP (es : List (String × String)) (u v : String) : Prop :=
  Reaches es u v ∧ Reaches es v u

/-- Sample node list for the synthetic cycle-detection graphs. -/
def nodesSample : List String := ["A", "B", "C"]

/-- The synthetic graph `A→B→C→A` (all internal edges). -/
def edgesCycleSample : List DepEdge :=
  [{ source := "A", target := "B", etype := "internal" },
   { source := "B", target := "C", etype := "internal" },
   { source := "C", target := "A", etype := "internal" }]

/-- The synthetic chain `A→B→C` with no return edge. -/
def edgesChainSample : List DepEdge :=
  [{ source := "A", target := "B", etype := "internal" },
   { source := "B", target := "C", etype := "internal" }]

theorem visitList_eq_join (src : List Char) (b : Bool) (ts : List Tree) :
    visitList src b ts = (ts.map (visit src b)).flatten := by
  induction ts with
  | nil => simp [visitList]
  | cons t ts ih => simp [visitList, ih]

theorem preorderPList_eq_join (b : Bool) (ts : List Tree) :
    preorderPList b ts = (ts.map (preorderP b)).flatten := by
  induction ts with
  | nil => simp [preorderPList]
  | cons t ts ih => simp [preorderPList, ih]

theorem pos_le_maxPos : ∀ t : Tree, t.pos ≤ maxPos t
  | .mk _ p _ _ _ _ ch => by
    simp only [Tree.pos, maxPos]
    exact le_max_left _ _

theorem chainOK_le (t : Tree) (ts : List Tree) (h : chainOK (t :: ts) = true) :
    ∀ t' ∈ ts, maxPos t ≤ t'.pos := by
  induction ts generalizing t with
  | nil => simp
  | cons c r ih =>
    intro t' ht'
    simp only [chainOK, Bool.and_eq_true, decide_eq_true_eq] at h
    rcases List.mem_cons.mp ht' with rfl | hm
    · exact h.1
    · exact le_trans (le_trans h.1 (pos_le_maxPos c)) (ih c h.2 t' hm)

theorem emitNode_pos (src : List Char) (b : Bool) (k : NodeKind) (p : Nat)
    (cs : Span) (m cn : String) (a : List Span) (ch : List Tree) :
    ∀ e ∈ emitNode src b (.mk k p cs m cn a ch), e.pos = p := by
  intro e he
  simp only [emitNode, List.mem_append] at he
  rcases he with he | he <;>
    [skip; skip] <;>
    · by_cases hk : (k = NodeKind.callProp) <;>
        by_cases hk2 : (k = NodeKind.newExpr) <;>
        simp [hk, hk2, methodEvent, ctorEvent] at he <;>
        simp [he, methodEvent, ctorEvent]

mutual

theorem visit_pos_ub (src : List Char) (b : Bool) :
    ∀ t : Tree, ∀ e ∈ visit src b t, e.pos ≤ maxPos t
  | .mk k p cs m cn a ch => by
    intro e he
    simp only [visit, List.mem_append] at he
    rcases he with he | he
    · have := emitNode_pos src b k p cs m cn a ch e he
      simp only [maxPos, this]
      exact le_max_left _ _
    · have := visitList_pos_ub src (decide (k = NodeKind.awaitExpr)) ch e he
      simp only [maxPos]
      exact le_trans this (le_max_right _ _)

theorem visitList_pos_ub (src : List Char) (b : Bool) :
    ∀ ts : List Tree, ∀ e ∈ visitList src b ts, e.pos ≤ maxPosList ts
  | [] => by intro e he; simp [visitList] at he
  | t :: ts => by
    intro e he
    simp only [visitList, List.mem_append] at he
    simp only [maxPosList]
    rcases he with he | he
    · exact le_trans (visit_pos_ub src b t e he) (le_max_left _ _)
    · exact le_trans (visitList_pos_ub src b ts e he) (le_max_right _ _)

end

mutual

theorem visit_pos_lb (src : List Char) (b : Bool) :
    ∀ t : Tree, posWF t = true → ∀ e ∈ visit src b t, t.pos ≤ e.pos
  | .mk k p cs m cn a ch => by
    intro hwf e he
    simp only [posWF, Bool.and_eq_true, List.all_eq_true, decide_eq_true_eq] at hwf
    simp only [visit, List.mem_append] at he
    rcases he with he | he
    · rw [emitNode_pos src b k p cs m cn a ch e he]
      exact le_refl _
    · rw [visitList_eq_join] at he
      simp only [List.mem_flatten, List.mem_map] at he
      obtain ⟨l, ⟨t', ht', rfl⟩, hel⟩ := he
      have h1 : p ≤ t'.pos := hwf.1.1 t' ht'
      have h2 := visit_pos_lb src (decide (k = NodeKind.awaitExpr)) t'
        (visitList_posWF ch hwf.2 t' ht') e hel
      exact le_trans h1 h2

theorem visitList_posWF :
    ∀ ts : List Tree, posWFList ts = true → ∀ t ∈ ts, posWF t = true
  | [] => by simp
  | t :: ts => by
    intro h t' ht'
    simp only [posWFList, Bool.and_eq_true] at h
    rcases List.mem_cons.mp ht' with rfl | hm
    · exact h.1
    · exact visitList_posWF ts h.2 t' hm

end

theorem chainOK_tail : ∀ (t : Tree) (ts : List Tree),
    chainOK (t :: ts) = true → chainOK ts = true
  | _, [] => by simp [chainOK]
  | _, c :: r => by
    intro h
    simp only [chainOK, Bool.and_eq_true] at h
    exact h.2

theorem visitList_pos_lb (src : List Char) (b : Bool) (p : Nat) (ts : List Tree)
    (hwf : posWFList ts = true) (hlb : ∀ t ∈ ts, p ≤ t.pos) :
    ∀ e ∈ visitList src b ts, p ≤ e.pos := by
  intro e he
  rw [visitList_eq_join] at he
  simp only [List.mem_flatten, List.mem_map] at he
  obtain ⟨l, ⟨t', ht', rfl⟩, hel⟩ := he
  exact le_trans (hlb t' ht')
    (visit_pos_lb src b t' (visitList_posWF ts hwf t' ht') e hel)

mutual

theorem visit_sorted (src : List Char) (b : Bool) :
    ∀ t : Tree, posWF t = true →
      List.Pairwise (· ≤ ·) ((visit src b t).map RawEvent.pos)
  | .mk k p cs m cn a ch => by
    intro hwf
    simp only [posWF, Bool.and_eq_true, List.all_eq_true, decide_eq_true_eq] at hwf
    simp only [visit, List.map_append]
    rw [List.pairwise_append]
    refine ⟨?_, ?_, ?_⟩
    · apply List.pairwise_of_forall_mem_list
      intro x hx y hy
      simp only [List.mem_map] at hx hy
      obtain ⟨e, he, rfl⟩ := hx
      obtain ⟨e', he', rfl⟩ := hy
      rw [emitNode_pos src b k p cs m cn a ch e he,
        emitNode_pos src b k p cs m cn a ch e' he']
    · exact visitList_sorted src (decide (k = NodeKind.awaitExpr)) ch
        hwf.2 hwf.1.2
    · intro x hx y hy
      simp only [List.mem_map] at hx hy
      obtain ⟨e, he, rfl⟩ := hx
      obtain ⟨e', he', rfl⟩ := hy
      rw [emitNode_pos src b k p cs m cn a ch e he]
      exact visitList_pos_lb src _ p ch hwf.2 hwf.1.1 e' he'

theorem visitList_sorted (src : List Char) (b : Bool) :
    ∀ ts : List Tree, posWFList ts = true → chainOK ts = true →
      List.Pairwise (· ≤ ·) ((visitList src b ts).map RawEvent.pos)
  | [] => by simp [visitList]
  | t :: ts => by
    intro hwf hch
    simp only [posWFList, Bool.and_eq_true] at hwf
    simp only [visitList, List.map_append]
    rw [List.pairwise_append]
    refine ⟨visit_sorted src b t hwf.1,
      visitList_sorted src b ts hwf.2 (chainOK_tail t ts hch), ?_⟩
    intro x hx y hy
    simp only [List.mem_map] at hx hy
    obtain ⟨e, he, rfl⟩ := hx
    obtain ⟨e', he', rfl⟩ := hy
    have h1 : e.pos ≤ maxPos t := visit_pos_ub src b t e he
    have h2 : maxPos t ≤ e'.pos := by
      rw [visitList_eq_join] at he'
      simp only [List.mem_flatten, List.mem_map] at he'
      obtain ⟨l, ⟨t', ht', rfl⟩, hel⟩ := he'
      exact le_trans (chainOK_le t ts hch t' ht')
        (visit_pos_lb src b t' (visitList_posWF ts hwf.2 t' ht') e' hel)
    exact le_trans h1 h2

end

mutual

theorem visit_eq_preorder (src : List Char) (b : Bool) :
    ∀ t : Tree,
      visit src b t
        = ((preorderP b t).map (fun pt => emitNode src pt.1 pt.2)).flatten
  | .mk k p cs m cn a ch => by
    simp only [visit, preorderP, List.map_cons, List.flatten_cons]
    rw [visitList_eq_preorder]

theorem visitList_eq_preorder (src : List Char) (b : Bool) :
    ∀ ts : List Tree,
      visitList src b ts
        = ((preorderPList b ts).map (fun pt => emitNode src pt.1 pt.2)).flatten
  | [] => by simp [visitList, preorderPList]
  | t :: ts => by
    simp only [visitList, preorderPList, List.map_append, List.flatten_append]
    rw [visit_eq_preorder, visitList_eq_preorder]

end

theorem emitNode_length (src : List Char) (b : Bool) (k : NodeKind) (p : Nat)
    (cs : Span) (m cn : String) (a : List Span) (ch : List Tree) :
    (emitNode src b (.mk k p cs m cn a ch)).length
      = (if isSite k then 1 else 0) := by
  cases k <;> simp [emitNode, isSite]

mutual

theorem visit_length (src : List Char) (b : Bool) :
    ∀ t : Tree, (visit src b t).length = siteCount t
  | .mk k p cs m cn a ch => by
    simp only [visit, List.length_append, siteCount,
      emitNode_length src b k p cs m cn a ch]
    rw [visitList_length]

theorem visitList_length (src : List Char) (b : Bool) :
    ∀ ts : List Tree, (visitList src b ts).length = siteCountList ts
  | [] => by simp [visitList, siteCountList]
  | t :: ts => by
    simp only [visitList, List.length_append, siteCountList]
    rw [visit_length, visitList_length]

end

theorem emitNode_mem (src : List Char) (b : Bool) (k : NodeKind) (p : Nat)
    (cs : Span) (m cn : String) (a : List Span) (ch : List Tree) :
    ∀ e ∈ emitNode src b (.mk k p cs m cn a ch),
      e = methodEvent src b p cs m a ∨ e = ctorEvent src p cn a := by
  intro e he
  simp only [emitNode, List.mem_append] at he
  rcases he with he | he
  · by_cases h : k = NodeKind.callProp
    · simp only [h, if_true, List.mem_singleton] at he
      exact Or.inl he
    · simp [h] at he
  · by_cases h : k = NodeKind.newExpr
    · simp only [h, if_true, List.mem_singleton] at he
      exact Or.inr he
    · simp [h] at he

mutual

theorem visit_flags (src : List Char) (b : Bool) :
    ∀ t : Tree, ∀ e ∈ visit src b t,
      e.in_try = none ∧ e.in_loop = none ∧ e.in_conditional = none
        ∧ (e.is_constructor = some true → e.is_async = none)
  | .mk k p cs m cn a ch => by
    intro e he
    simp only [visit, List.mem_append] at he
    rcases he with he | he
    · rcases emitNode_mem src b k p cs m cn a ch e he with rfl | rfl
      · simp [methodEvent]
      · simp [ctorEvent]
    · exact visitList_flags src _ ch e he

theorem visitList_flags (src : List Char) (b : Bool) :
    ∀ ts : List Tree, ∀ e ∈ visitList src b ts,
      e.in_try = none ∧ e.in_loop = none ∧ e.in_conditional = none
        ∧ (e.is_constructor = some true → e.is_async = none)
  | [] => by intro e he; simp [visitList] at he
  | t :: ts => by
    intro e he
    simp only [visitList, List.mem_append] at he
    rcases he with he | he
    · exact visit_flags src b t e he
    · exact visitList_flags src b ts e he

end

mutual

theorem visit_args (src : List Char) (b : Bool) :
    ∀ t : Tree, ∀ e ∈ visit src b t,
      ∃ spans : List Span, e.args = spans.map (captureArg src)
  | .mk k p cs m cn a ch => by
    intro e he
    simp only [visit, List.mem_append] at he
    rcases he with he | he
    · rcases emitNode_mem src b k p cs m cn a ch e he with rfl | rfl
      · exact ⟨a, rfl⟩
      · exact ⟨a, rfl⟩
    · exact visitList_args src _ ch e he

theorem visitList_args (src : List Char) (b : Bool) :
    ∀ ts : List Tree, ∀ e ∈ visitList src b ts,
      ∃ spans : List Span, e.args = spans.map (captureArg src)
  | [] => by intro e he; simp [visitList] at he
  | t :: ts => by
    intro e he
    simp only [visitList, List.mem_append] at he
    rcases he with he | he
    · exact visit_args src b t e he
    · exact visitList_args src b ts e he

end

theorem dropWhile_eq_self_of_head (l : List Char)
    (h : ∀ c, l.head? = some c → isWS c = false) :
    l.dropWhile isWS = l := by
  cases l with
  | nil => rfl
  | cons a r =>
    have ha := h a rfl
    simp [List.dropWhile_cons, ha]

theorem trim_eq_self (l : List Char)
    (h1 : ∀ c, l.head? = some c → isWS c = false)
    (h2 : ∀ c, l.getLast? = some c → isWS c = false) :
    trim l = l := by
  unfold trim trimRight
  rw [dropWhile_eq_self_of_head l h1]
  rw [dropWhile_eq_self_of_head l.reverse]
  · exact List.reverse_reverse l
  · intro c hc
    exact h2 c (by rw [← List.head?_reverse]; exact hc)

/-- C4: the Call Event Extractor's output equals a depth-first pre-order
traversal of the syntax tree (each node's events appear at the node's
pre-order slot, so there is no sorting step and events sharing a source
position keep extraction order), and on a position-well-formed tree the
output is sorted by source position. -/
theorem extractor_preorder_and_position_sorted :
    (∀ (src : List Char) (b : Bool) (t : Tree),
        visit src b t
          = ((preorderP b t).map (fun pt => emitNode src pt.1 pt.2)).flatten)
    ∧ (∀ (src : List Char) (b : Bool) (t : Tree), posWF t = true →
        List.Pairwise (· ≤ ·) ((visit src b t).map RawEvent.pos)) :=
  ⟨fun src b t => visit_eq_preorder src b t,
   fun src b t h => visit_sorted src b t h⟩

/-- Witness for C4 at the concrete sample unit. -/
theorem extractor_preorder_and_position_sorted_witness :
    posWF treeSample = true
      ∧ List.Pairwise (· ≤ ·)
          ((visit srcSample false treeSample).map RawEvent.pos) :=
  ⟨by decide,
   extractor_preorder_and_position_sorted.2 srcSample false treeSample
     (by decide)⟩

/-- C5 counterexample: the method-call event emitted for `obj.m( x)` carries
no `in_try`, `in_loop` or `in_conditional` key at all — the extractor never
writes them — refuting the claim that every event carries those context
booleans. -/
theorem extractor_context_flags_cex :
    ∃ e ∈ visit srcSample false callNodeSample,
      e.in_try = none ∧ e.in_loop = none ∧ e.in_conditional = none := by
  decide

/-- C5 amended: every emitted event carries no `in_try`/`in_loop`/
`in_conditional` key; constructor events carry no `is_async` key either;
a method-call event records `is_async` equal to whether its direct parent
is an `AwaitExpression` (the only lexical-nesting flag the extractor
derives), and an `AwaitExpression` node passes that bit to its children. -/
theorem extractor_context_flags_amended :
    (∀ (src : List Char) (b : Bool) (t : Tree), ∀ e ∈ visit src b t,
        e.in_try = none ∧ e.in_loop = none ∧ e.in_conditional = none
          ∧ (e.is_constructor = some true → e.is_async = none))
    ∧ (∀ (src : List Char) (b : Bool) (p : Nat) (cs : Span) (m cn : String)
          (a : List Span) (ch : List Tree),
        visit src b (Tree.mk NodeKind.callProp p cs m cn a ch)
          = methodEvent src b p cs m a :: visitList src false ch)
    ∧ (∀ (src : List Char) (b : Bool) (p : Nat) (cs : Span) (m cn : String)
          (a : List Span) (ch : List Tree),
        visit src b (Tree.mk NodeKind.awaitExpr p cs m cn a ch)
          = visitList src true ch) :=
  ⟨fun src b t => visit_flags src b t,
   fun src b p cs m cn a ch => by simp [visit, emitNode],
   fun src b p cs m cn a ch => by simp [visit, emitNode]⟩

/-- Witness for C5 amended at the concrete sample unit. -/
theorem extractor_context_flags_amended_witness :
    ∃ e ∈ visit srcSample false treeSample,
      e.in_try = none ∧ e.in_loop = none ∧ e.in_conditional = none
        ∧ (e.is_constructor = some true → e.is_async = none) := by
  refine ⟨methodEvent srcSample false 0 ⟨0, 3⟩ "m" [⟨6, 8⟩], ?_, ?_⟩
  · decide
  · exact extractor_context_flags_amended.1 srcSample false treeSample
      (methodEvent srcSample false 0 ⟨0, 3⟩ "m" [⟨6, 8⟩]) (by decide)

/-- C6 counterexample: for the call `obj.m( x)` the argument span `[6,8)`
has text `" x"`, but the extractor captures the trimmed snippet `"x"` —
the captured text is not the exact source substring of the argument. -/
theorem captured_arg_exact_cex :
    ∃ e ∈ visit srcSample false callNodeSample,
      e.args = [captureArg srcSample ⟨6, 8⟩]
        ∧ captureArg srcSample ⟨6, 8⟩ ≠ exactArgText srcSample ⟨6, 8⟩ := by
  decide

/-- C6 amended: every emitted event's argument snippets are the
whitespace-trimmed span texts (`substring(arg.pos, arg.end).trim()`), and
the captured text coincides with the exact source substring exactly when
that substring neither starts nor ends with whitespace. -/
theorem captured_arg_trimmed :
    (∀ (src : List Char) (b : Bool) (t : Tree), ∀ e ∈ visit src b t,
        ∃ spans : List Span, e.args = spans.map (captureArg src))
    ∧ (∀ (src : List Char) (s : Span),
        captureArg src s = trim (exactArgText src s))
    ∧ (∀ (src : List Char) (s : Span),
        (∀ c, (exactArgText src s).head? = some c → isWS c = false) →
        (∀ c, (exactArgText src s).getLast? = some c → isWS c = false) →
        captureArg src s = exactArgText src s) :=
  ⟨fun src b t => visit_args src b t,
   fun _ _ => rfl,
   fun _ _ h1 h2 => trim_eq_self _ h1 h2⟩

/-- Witness for C6 amended: applying the theorem at the receiver span
`[0,3)` of the sample source, whose text `obj` has no surrounding
whitespace, yields the exact substring. -/
theorem captured_arg_trimmed_witness :
    captureArg srcSample ⟨0, 3⟩ = exactArgText srcSample ⟨0, 3⟩ :=
  captured_arg_trimmed.2.2 srcSample ⟨0, 3⟩ (by decide) (by decide)

theorem stepItem_ids_blocks (s : AsmState) (it : Item)
    (h1 : s.messages.map Message.id = List.range s.nextId)
    (h2 : ∀ b ∈ s.blocks,
        b.start_message_id ≤ b.end_message_id ∧ b.end_message_id < s.nextId) :
    ((stepItem s it).messages.map Message.id = List.range (stepItem s it).nextId)
      ∧ (∀ b ∈ (stepItem s it).blocks,
          b.start_message_id ≤ b.end_message_id
            ∧ b.end_message_id < (stepItem s it).nextId) := by
  by_cases ha : s.aborted = true
  · simp only [stepItem, ha, if_true]
    exact ⟨h1, h2⟩
  · rw [Bool.not_eq_true] at ha
    cases it with
    | event e =>
      simp only [stepItem, ha, Bool.false_eq_true, if_false]
      constructor
      · simp only [List.map_append, List.map_cons, List.map_nil, h1]
        rw [List.range_succ]
      · intro b hb
        exact ⟨(h2 b hb).1, Nat.lt_succ_of_lt (h2 b hb).2⟩
    | enterRegion ty c il =>
      simp only [stepItem, ha, Bool.false_eq_true, if_false]
      exact ⟨h1, h2⟩
    | exitRegion =>
      simp only [stepItem, ha, Bool.false_eq_true, if_false]
      cases hs : s.stack with
      | nil => exact ⟨h1, h2⟩
      | cons top rest =>
        by_cases hlt : top.start_message_id < s.nextId
        · simp only [hlt, if_true]
          refine ⟨h1, ?_⟩
          intro b hb
          rcases List.mem_append.mp hb with hb | hb
          · exact h2 b hb
          · rcases List.mem_singleton.mp hb with rfl
            refine ⟨?_, ?_⟩ <;> simp only [] <;> omega
        · simp only [hlt, if_false]
          exact ⟨h1, h2⟩

theorem assemble_ids_aux (items : List Item) :
    ∀ s : AsmState, s.messages.map Message.id = List.range s.nextId →
      (∀ b ∈ s.blocks,
          b.start_message_id ≤ b.end_message_id ∧ b.end_message_id < s.nextId) →
      ((items.foldl stepItem s).messages.map Message.id
          = List.range (items.foldl stepItem s).nextId)
        ∧ (∀ b ∈ (items.foldl stepItem s).blocks,
            b.start_message_id ≤ b.end_message_id
              ∧ b.end_message_id < (items.foldl stepItem s).nextId) := by
  induction items with
  | nil => intro s h1 h2; exact ⟨h1, h2⟩
  | cons it r ih =>
    intro s h1 h2
    simp only [List.foldl_cons]
    exact ih (stepItem s it) (stepItem_ids_blocks s it h1 h2).1
      (stepItem_ids_blocks s it h1 h2).2

theorem assemble_ids (items : List Item) :
    ((assemble items).messages.map Message.id
        = List.range (assemble items).nextId)
      ∧ (∀ b ∈ (assemble items).blocks,
          b.start_message_id ≤ b.end_message_id
            ∧ b.end_message_id < (assemble items).nextId) :=
  assemble_ids_aux items {} rfl (by intro b hb; simp [AsmState.blocks] at hb)

theorem foldl_stack_length (items : List Item) :
    ∀ (d : Nat) (s : AsmState), s.aborted = false → s.stack.length = d →
      noUnderflow d items = true →
      (items.foldl stepItem s).aborted = false
        ∧ (items.foldl stepItem s).stack.length
            = d + countEnter items - countExit items
        ∧ countExit items ≤ d + countEnter items := by
  induction items with
  | nil =>
    intro d s ha hd _
    simp only [List.foldl_nil, countEnter, countExit, List.countP_nil]
    exact ⟨ha, by omega, by omega⟩
  | cons it r ih =>
    intro d s ha hd hnu
    cases it with
    | event e =>
      simp only [noUnderflow] at hnu
      simp only [List.foldl_cons]
      have hstep : (stepItem s (.event e)).aborted = false
          ∧ (stepItem s (.event e)).stack = s.stack := by
        simp [stepItem, ha]
      have := ih d (stepItem s (.event e)) hstep.1 (by rw [hstep.2]; exact hd) hnu
      simp only [countEnter, countExit, List.countP_cons, isEnter, isExit] at this ⊢
      simpa using this
    | enterRegion ty c il =>
      simp only [noUnderflow] at hnu
      simp only [List.foldl_cons]
      have hstep : (stepItem s (.enterRegion ty c il)).aborted = false
          ∧ (stepItem s (.enterRegion ty c il)).stack.length = d + 1 := by
        simp [stepItem, ha, hd]
      have := ih (d + 1) _ hstep.1 hstep.2 hnu
      simp only [countEnter, countExit, List.countP_cons, isEnter, isExit] at this ⊢
      simp only [if_true, if_false] at this ⊢
      obtain ⟨hab, hlen, hle⟩ := this
      refine ⟨hab, ?_, ?_⟩ <;> simp <;> omega
    | exitRegion =>
      simp only [noUnderflow, Bool.and_eq_true, decide_eq_true_eq] at hnu
      obtain ⟨hdpos, hnu⟩ := hnu
      simp only [List.foldl_cons]
      cases hs : s.stack with
      | nil => rw [hs] at hd; simp at hd; omega
      | cons top rest =>
        have hrest : rest.length = d - 1 := by
          rw [hs] at hd; simp at hd; omega
        have hstep : (stepItem s .exitRegion).aborted = false
            ∧ (stepItem s .exitRegion).stack = rest := by
          by_cases hlt : top.start_message_id < s.nextId <;>
            simp [stepItem, ha, hs, hlt]
        have := ih (d - 1) _ hstep.1 (by rw [hstep.2]; exact hrest) hnu
        simp only [countEnter, countExit, List.countP_cons, isEnter, isExit] at this ⊢
        obtain ⟨hab, hlen, hle⟩ := this
        refine ⟨hab, ?_, ?_⟩ <;> simp at hlen hle ⊢ <;> omega

theorem noUnderflow_append (x y : List Item) :
    ∀ d, noUnderflow d (x ++ y) = true → noUnderflow d x = true := by
  induction x with
  | nil => intro d _; rfl
  | cons it r ih =>
    intro d h
    cases it with
    | event e =>
      simp only [List.cons_append, noUnderflow] at h ⊢
      exact ih d h
    | enterRegion ty c il =>
      simp only [List.cons_append, noUnderflow] at h ⊢
      exact ih (d + 1) h
    | exitRegion =>
      simp only [List.cons_append, noUnderflow, Bool.and_eq_true] at h ⊢
      exact ⟨h.1, ih (d - 1) h.2⟩

theorem assemble_enter_nesting (q : List Item) (ty c : String) (il : Bool)
    (r : List Item)
    (h : noUnderflow 0 (q ++ Item.enterRegion ty c il :: r) = true) :
    ∃ rest, (assemble (q ++ [Item.enterRegion ty c il])).stack
      = ({ btype := ty, cond := c,
           start_message_id := (assemble q).nextId,
           nesting_level := countEnter q - countExit q,
           is_loop := il } : BlockEntry) :: rest := by
  have hsplit : q ++ Item.enterRegion ty c il :: r
      = (q ++ [Item.enterRegion ty c il]) ++ r := by simp
  rw [hsplit] at h
  have hq' : noUnderflow 0 (q ++ [Item.enterRegion ty c il]) = true :=
    noUnderflow_append _ r 0 h
  have hq : noUnderflow 0 q = true := noUnderflow_append q _ 0 hq'
  have hrun := foldl_stack_length q 0 {} rfl rfl hq
  unfold assemble
  rw [List.foldl_append]
  simp only [List.foldl_cons, List.foldl_nil]
  have ha : (List.foldl stepItem {} q).aborted = false := hrun.1
  refine ⟨(List.foldl stepItem {} q).stack, ?_⟩
  simp only [stepItem, ha, Bool.false_eq_true, if_false]
  have hlen : (List.foldl stepItem {} q).stack.length
      = countEnter q - countExit q := by
    have := hrun.2.1
    omega
  rw [hlen]

/-- C2: every emitted ConditionalBlock has `start_message_id ≤
end_message_id` and — since message ids are handed out in assembly order
`0, 1, 2, …` — the start message precedes or equals the end message in
assembly order; every emitted block encloses at least one actually-emitted
message (no zero-message block survives); and on well-balanced input the
block-stack entry pushed at a region entry records as `nesting_level`
exactly the number of regions opened and not yet closed at that moment
(the open ancestor count at creation time). -/
theorem conditional_block_invariants :
    (∀ items : List Item,
        (assemble items).messages.map Message.id
          = List.range (assemble items).nextId)
    ∧ (∀ items : List Item, ∀ b ∈ (assemble items).blocks,
        b.start_message_id ≤ b.end_message_id
          ∧ ∃ m ∈ (assemble items).messages,
              b.start_message_id ≤ m.id ∧ m.id ≤ b.end_message_id)
    ∧ (∀ (q : List Item) (ty c : String) (il : Bool) (r : List Item),
        noUnderflow 0 (q ++ Item.enterRegion ty c il :: r) = true →
        ∃ rest, (assemble (q ++ [Item.enterRegion ty c il])).stack
          = ({ btype := ty, cond := c,
               start_message_id := (assemble q).nextId,
               nesting_level := countEnter q - countExit q,
               is_loop := il } : BlockEntry) :: rest) := by
  refine ⟨fun items => (assemble_ids items).1, ?_, ?_⟩
  · intro items b hb
    obtain ⟨hse, hlt⟩ := (assemble_ids items).2 b hb
    refine ⟨hse, ?_⟩
    have hmem : b.end_message_id ∈ (assemble items).messages.map Message.id := by
      rw [(assemble_ids items).1]
      exact List.mem_range.mpr hlt
    obtain ⟨m, hm, hid⟩ := List.mem_map.mp hmem
    exact ⟨m, hm, by omega, by omega⟩
  · intro q ty c il r h
    exact assemble_enter_nesting q ty c il r h

/-- Witness for C2 at the concrete sample input (one `if` region enclosing
one event). -/
theorem conditional_block_invariants_witness :
    (∃ m ∈ (assemble sampleItems).messages,
        sampleBlock.start_message_id ≤ m.id
          ∧ m.id ≤ sampleBlock.end_message_id)
      ∧ ∃ rest, (assemble ([] ++ [Item.enterRegion "if" "cond" false])).stack
          = ({ btype := "if", cond := "cond",
               start_message_id := (assemble []).nextId,
               nesting_level := countEnter [] - countExit [],
               is_loop := false } : BlockEntry) :: rest :=
  ⟨(conditional_block_invariants.2.1 sampleItems sampleBlock (by decide)).2,
   conditional_block_invariants.2.2 [] "if" "cond" false
     [Item.event evSample, Item.exitRegion] (by decide)⟩

theorem assemble_events_only_aux (items : List Item) :
    ∀ s : AsmState, (∀ i ∈ items, isEvent i = true) → s.aborted = false →
      ((items.foldl stepItem s).messages.length
          = s.messages.length + items.length)
        ∧ (items.foldl stepItem s).blocks = s.blocks
        ∧ (items.foldl stepItem s).aborted = false := by
  induction items with
  | nil => intro s _ ha; simp [ha]
  | cons it r ih =>
    intro s hall ha
    have hit : isEvent it = true := hall it (List.mem_cons_self it r)
    cases it with
    | event e =>
      simp only [List.foldl_cons]
      have hstep : (stepItem s (.event e)).messages.length
            = s.messages.length + 1
          ∧ (stepItem s (.event e)).blocks = s.blocks
          ∧ (stepItem s (.event e)).aborted = false := by
        simp [stepItem, ha]
      obtain ⟨h1, h2, h3⟩ :=
        ih (stepItem s (.event e))
          (fun i hi => hall i (List.mem_cons_of_mem _ hi)) hstep.2.2
      refine ⟨?_, ?_, h3⟩
      · rw [h1, hstep.1]; simp; omega
      · rw [h2, hstep.2.1]
    | enterRegion ty c il => simp [isEvent] at hit
    | exitRegion => simp [isEvent] at hit

/-- C1: the assembler run on call events only (no region markers) emits
exactly one message per event and no ConditionalBlock; the extractor emits
exactly one event per call/construction site; and hence the full pipeline
on a source unit with no conditional/loop/try regions produces a Message
list of length `siteCount` and an empty ConditionalBlock set. -/
theorem messages_one_per_site_no_blocks :
    (∀ items : List Item, (∀ i ∈ items, isEvent i = true) →
        (assemble items).messages.length = items.length
          ∧ (assemble items).blocks = [])
    ∧ (∀ (src : List Char) (b : Bool) (t : Tree),
        (visit src b t).length = siteCount t)
    ∧ (∀ (src : List Char) (t : Tree),
        (pipeline src t).messages.length = siteCount t
          ∧ (pipeline src t).blocks = []) := by
  have hbase : ∀ items : List Item, (∀ i ∈ items, isEvent i = true) →
      (assemble items).messages.length = items.length
        ∧ (assemble items).blocks = [] := by
    intro items hall
    obtain ⟨h1, h2, _⟩ := assemble_events_only_aux items {} hall rfl
    exact ⟨by simpa using h1, by simpa using h2⟩
  refine ⟨hbase, fun src b t => visit_length src b t, ?_⟩
  intro src t
  have hall : ∀ i ∈ (visit src false t).map toItem, isEvent i = true := by
    intro i hi
    obtain ⟨e, _, rfl⟩ := List.mem_map.mp hi
    rfl
  have := hbase ((visit src false t).map toItem) hall
  unfold pipeline
  refine ⟨?_, this.2⟩
  rw [this.1, List.length_map, visit_length]

/-- Witness for C1 at the concrete sample unit (one call, one
construction, no regions). -/
theorem messages_one_per_site_no_blocks_witness :
    (assemble [Item.event evSample]).messages.length
        = [Item.event evSample].length
      ∧ (assemble [Item.event evSample]).blocks = [] :=
  messages_one_per_site_no_blocks.1 [Item.event evSample] (by decide)

theorem truthyS_getD_ne (o : Option String) (h : truthyS o = true) :
    o.getD "" ≠ "" := by
  cases o with
  | none => simp [truthyS] at h
  | some s =>
    simp only [truthyS, Bool.not_eq_true'] at h
    intro hs
    rw [Option.getD_some] at hs
    rw [hs] at h
    exact absurd h (by decide)

theorem altFlag_append (o : Bool) (x y : List AMessage) :
    altFlag o (x ++ y) = altFlag (altFlag o x) y := by
  induction x generalizing o with
  | nil => rfl
  | cons m r ih =>
    simp only [List.cons_append, altFlag]
    exact ih _

theorem altOK_append (o : Bool) (x y : List AMessage) :
    altOK o (x ++ y) = true → altOK o x = true := by
  induction x generalizing o with
  | nil => intro _; rfl
  | cons m r ih =>
    intro h
    simp only [List.cons_append, altOK] at h ⊢
    by_cases hcc : (truthyS m.creates_track && o) = true
    · simp [hcc] at h
    · rw [if_neg hcc] at h ⊢
      exact ih _ h

theorem altOK_last (o : Bool) (x : List AMessage) (m : AMessage)
    (h : altOK o (x ++ [m]) = true) (hc : truthyS m.creates_track = true) :
    altFlag o x = false := by
  induction x generalizing o with
  | nil =>
    simp only [List.nil_append, altOK, hc, Bool.true_and] at h
    cases o with
    | false => rfl
    | true => simp at h
  | cons n r ih =>
    simp only [List.cons_append, altOK, altFlag] at h ⊢
    by_cases hcc : (truthyS n.creates_track && o) = true
    · simp [hcc] at h
    · rw [if_neg hcc] at h
      exact ih _ h

theorem stepTrackMsg_skip (ls : List String) (st : TrackState) (m : AMessage)
    (hin : ¬(m.fromName ∈ ls ∧ m.toName ∈ ls)) :
    stepTrackMsg ls st m = st := by
  simp [stepTrackMsg, hin]

theorem stepTrackMsg_none (ls : List String) (st : TrackState) (m : AMessage)
    (hin : m.fromName ∈ ls ∧ m.toName ∈ ls)
    (hc : truthyS m.creates_track = false)
    (hr : truthyS m.returns_to_track = false) :
    stepTrackMsg ls st m
      = { st with currentY := st.currentY + messageHeight,
                  rendered := st.rendered ++ [m] } := by
  simp [stepTrackMsg, hin, hc, hr]

theorem stepTrackMsg_create (ls : List String) (st : TrackState) (m : AMessage)
    (hin : m.fromName ∈ ls ∧ m.toName ∈ ls)
    (hc : truthyS m.creates_track = true)
    (hr : truthyS m.returns_to_track = false) :
    stepTrackMsg ls st m
      = { st with regionStartY := st.currentY,
                  currentRegion := m.creates_track.getD "",
                  currentY := st.currentY + messageHeight,
                  rendered := st.rendered ++ [m] } := by
  simp [stepTrackMsg, hin, hc, hr]

theorem stepTrackMsg_create_return (ls : List String) (st : TrackState)
    (m : AMessage)
    (hin : m.fromName ∈ ls ∧ m.toName ∈ ls)
    (hc : truthyS m.creates_track = true)
    (hr : truthyS m.returns_to_track = true) :
    stepTrackMsg ls st m
      = { st with regionStartY := st.currentY,
                  currentRegion := "",
                  regions := st.regions ++
                    [{ startY := st.currentY,
                       endY := st.currentY + messageHeight,
                       name := m.creates_track.getD "" }],
                  currentY := st.currentY + messageHeight,
                  rendered := st.rendered ++ [m] } := by
  have hne : m.creates_track.getD "" ≠ "" := truthyS_getD_ne _ hc
  simp [stepTrackMsg, hin, hc, hr, hne]

theorem stepTrackMsg_return_open (ls : List String) (st : TrackState)
    (m : AMessage)
    (hin : m.fromName ∈ ls ∧ m.toName ∈ ls)
    (hc : truthyS m.creates_track = false)
    (hr : truthyS m.returns_to_track = true)
    (hopen : st.currentRegion ≠ "") :
    stepTrackMsg ls st m
      = { st with currentRegion := "",
                  regions := st.regions ++
                    [{ startY := st.regionStartY,
                       endY := st.currentY + messageHeight,
                       name := st.currentRegion }],
                  currentY := st.currentY + messageHeight,
                  rendered := st.rendered ++ [m] } := by
  simp [stepTrackMsg, hin, hc, hr, hopen]

theorem stepTrackMsg_return_closed (ls : List String) (st : TrackState)
    (m : AMessage)
    (hin : m.fromName ∈ ls ∧ m.toName ∈ ls)
    (hc : truthyS m.creates_track = false)
    (hr : truthyS m.returns_to_track = true)
    (hcl : st.currentRegion = "") :
    stepTrackMsg ls st m
      = { st with currentY := st.currentY + messageHeight,
                  rendered := st.rendered ++ [m] } := by
  simp [stepTrackMsg, hin, hc, hr, hcl]

theorem trackLoop_concat (ls : List String) (y0 : Nat) (q : List AMessage)
    (m : AMessage) :
    trackLoop ls y0 (q ++ [m]) = stepTrackMsg ls (trackLoop ls y0 q) m := by
  simp [trackLoop, List.foldl_append]

theorem trackLoop_inv (ls : List String) (y0 : Nat) :
    ∀ p : List AMessage,
      (∀ m ∈ p, m.fromName ∈ ls ∧ m.toName ∈ ls) →
      altOK false p = true →
      (trackLoop ls y0 p).currentY = y0 + messageHeight * p.length
      ∧ ((trackLoop ls y0 p).currentRegion ≠ "" ↔ altFlag false p = true)
      ∧ ((trackLoop ls y0 p).currentRegion ≠ "" →
          ∃ i mi, p[i]? = some mi ∧ truthyS mi.creates_track = true
            ∧ mi.creates_track.getD "" = (trackLoop ls y0 p).currentRegion
            ∧ (trackLoop ls y0 p).regionStartY = y0 + messageHeight * i
            ∧ (trackLoop ls y0 p).regionStartY + messageHeight
                ≤ (trackLoop ls y0 p).currentY)
      ∧ (∀ r ∈ (trackLoop ls y0 p).regions,
          (∃ i mi, p[i]? = some mi ∧ truthyS mi.creates_track = true
            ∧ mi.creates_track.getD "" = r.name
            ∧ r.startY = y0 + messageHeight * i)
          ∧ (∃ j mj, p[j]? = some mj ∧ truthyS mj.returns_to_track = true
              ∧ r.endY = y0 + messageHeight * (j + 1))
          ∧ r.startY < r.endY)
      ∧ (∀ i mi, p[i]? = some mi → truthyS mi.creates_track = true →
          (∃ r ∈ (trackLoop ls y0 p).regions,
              r.startY = y0 + messageHeight * i
                ∧ r.name = mi.creates_track.getD "")
          ∨ ((trackLoop ls y0 p).currentRegion = mi.creates_track.getD ""
              ∧ (trackLoop ls y0 p).regionStartY = y0 + messageHeight * i)) := by
  intro p
  induction p using List.reverseRecOn with
  | nil =>
    intro _ _
    refine ⟨by simp [trackLoop], by simp [trackLoop, altFlag], ?_, ?_, ?_⟩
    · intro h; simp [trackLoop] at h
    · intro r hr; simp [trackLoop] at hr
    · intro i mi h; simp at h
  | append_singleton q m ih =>
    intro hlife halt
    have hlq : ∀ m' ∈ q, m'.fromName ∈ ls ∧ m'.toName ∈ ls :=
      fun m' hm' => hlife m' (List.mem_append_left _ hm')
    have haq : altOK false q = true := altOK_append false q [m] halt
    obtain ⟨ih1, ih2, ih3, ih4, ih5⟩ := ih hlq haq
    have hm : m.fromName ∈ ls ∧ m.toName ∈ ls :=
      hlife m (List.mem_append_right _ (List.mem_singleton_self m))
    have hmul : ∀ n : Nat,
        y0 + messageHeight * (n + 1) = y0 + messageHeight * n + messageHeight :=
      fun n => by rw [Nat.mul_succ, Nat.add_assoc]
    have hmh : 0 < messageHeight := by decide
    have hlift : ∀ (i : Nat) (mi : AMessage),
        q[i]? = some mi → (q ++ [m])[i]? = some mi := by
      intro i mi h
      have hb : i < q.length := (List.getElem?_eq_some_iff.mp h).1
      rw [List.getElem?_append_left hb]
      exact h
    have hidx : ∀ (i : Nat) (mi : AMessage), (q ++ [m])[i]? = some mi →
        (i < q.length ∧ q[i]? = some mi) ∨ (i = q.length ∧ mi = m) := by
      intro i mi h
      have hb : i < q.length + 1 := by
        have := (List.getElem?_eq_some_iff.mp h).1
        simpa using this
      by_cases hlt : i < q.length
      · refine Or.inl ⟨hlt, ?_⟩
        rw [← List.getElem?_append_left hlt]
        exact h
      · have hi : i = q.length := by omega
        subst hi
        rw [List.getElem?_concat_length] at h
        exact Or.inr ⟨rfl, (Option.some.injEq _ _ ▸ h).symm⟩
    have hlast : (q ++ [m])[q.length]? = some m := List.getElem?_concat_length q m
    have haf : altFlag false (q ++ [m])
        = if truthyS m.returns_to_track then false
          else (truthyS m.creates_track || altFlag false q) := by
      rw [altFlag_append]
      rfl
    have hlen : (q ++ [m]).length = q.length + 1 := by simp
    rw [trackLoop_concat]
    by_cases hc : truthyS m.creates_track = true
    · -- a spawn message: any previously open region must be closed (altOK)
      have hflagq : altFlag false q = false := altOK_last false q m halt hc
      have hregq : (trackLoop ls y0 q).currentRegion = "" := by
        by_contra hne
        rw [ih2.mp hne] at hflagq
        exact absurd hflagq (by simp)
      by_cases hr : truthyS m.returns_to_track = true
      · -- spawn immediately joined in the same message
        rw [stepTrackMsg_create_return ls _ m hm hc hr]
        refine ⟨?_, ?_, ?_, ?_, ?_⟩
        · simp only [hlen, hmul, ih1]
        · simp [haf, hr]
        · intro h; simp at h
        · intro r hr'
          simp only [List.mem_append, List.mem_singleton] at hr'
          rcases hr' with hr' | rfl
          · obtain ⟨⟨i, mi, h1, h2, h3, h4⟩, ⟨j, mj, h5, h6, h7⟩, h8⟩ :=
              ih4 r hr'
            exact ⟨⟨i, mi, hlift i mi h1, h2, h3, h4⟩,
              ⟨j, mj, hlift j mj h5, h6, h7⟩, h8⟩
          · refine ⟨⟨q.length, m, hlast, hc, rfl, by simp [ih1]⟩,
              ⟨q.length, m, hlast, hr, by simp [ih1, hmul]⟩, ?_⟩
            exact Nat.lt_add_of_pos_right hmh
        · intro i mi h hci
          rcases hidx i mi h with ⟨hlt, hq⟩ | ⟨rfl, rfl⟩
          · rcases ih5 i mi hq hci with ⟨r, hr', hprop⟩ | ⟨hopen, _⟩
            · exact Or.inl ⟨r, List.mem_append_left _ hr', hprop⟩
            · rw [hregq] at hopen
              exact absurd hopen.symm (truthyS_getD_ne _ hci)
          · refine Or.inl ⟨_, List.mem_append_right _ (List.mem_singleton_self _), ?_⟩
            simp [ih1]
      · -- spawn that stays open
        replace hr : truthyS m.returns_to_track = false := by
          simpa using hr
        rw [stepTrackMsg_create ls _ m hm hc hr]
        have hnegd : m.creates_track.getD "" ≠ "" := truthyS_getD_ne _ hc
        refine ⟨?_, ?_, ?_, ?_, ?_⟩
        · simp only [hlen, hmul, ih1]
        · simp [haf, hr, hc, hnegd]
        · intro _
          refine ⟨q.length, m, hlast, hc, rfl, ?_, ?_⟩
          · simp [ih1]
          · simp [ih1]
        · intro r hr'
          obtain ⟨⟨i, mi, h1, h2, h3, h4⟩, ⟨j, mj, h5, h6, h7⟩, h8⟩ :=
            ih4 r hr'
          exact ⟨⟨i, mi, hlift i mi h1, h2, h3, h4⟩,
            ⟨j, mj, hlift j mj h5, h6, h7⟩, h8⟩
        · intro i mi h hci
          rcases hidx i mi h with ⟨hlt, hq⟩ | ⟨rfl, rfl⟩
          · rcases ih5 i mi hq hci with ⟨r, hr', hprop⟩ | ⟨hopen, _⟩
            · exact Or.inl ⟨r, hr', hprop⟩
            · rw [hregq] at hopen
              exact absurd hopen.symm (truthyS_getD_ne _ hci)
          · refine Or.inr ⟨rfl, ?_⟩
            simp [ih1]
    · replace hc : truthyS m.creates_track = false := by simpa using hc
      by_cases hr : truthyS m.returns_to_track = true
      · by_cases hopen : (trackLoop ls y0 q).currentRegion ≠ ""
        · -- a join closing the open spawn region
          rw [stepTrackMsg_return_open ls _ m hm hc hr hopen]
          obtain ⟨i0, mi0, g1, g2, g3, g4, g5⟩ := ih3 hopen
          refine ⟨?_, ?_, ?_, ?_, ?_⟩
          · simp only [hlen, hmul, ih1]
          · simp [haf, hr]
          · intro h; simp at h
          · intro r hr'
            simp only [List.mem_append, List.mem_singleton] at hr'
            rcases hr' with hr' | rfl
            · obtain ⟨⟨i, mi, h1, h2, h3, h4⟩, ⟨j, mj, h5, h6, h7⟩, h8⟩ :=
                ih4 r hr'
              exact ⟨⟨i, mi, hlift i mi h1, h2, h3, h4⟩,
                ⟨j, mj, hlift j mj h5, h6, h7⟩, h8⟩
            · refine ⟨⟨i0, mi0, hlift i0 mi0 g1, g2, g3, g4⟩,
                ⟨q.length, m, hlast, hr, by simp [ih1, hmul]⟩, ?_⟩
              simp only []
              omega
          · intro i mi h hci
            rcases hidx i mi h with ⟨hlt, hq⟩ | ⟨rfl, rfl⟩
            · rcases ih5 i mi hq hci with ⟨r, hr', hprop⟩ | ⟨ho1, ho2⟩
              · exact Or.inl ⟨r, List.mem_append_left _ hr', hprop⟩
              · refine Or.inl ⟨_,
                  List.mem_append_right _ (List.mem_singleton_self _), ?_⟩
                exact ⟨by simpa using ho2, by simpa using ho1⟩
            · rw [hci] at hc
              exact absurd hc (by simp)
        · -- a join with no open region: a no-op for the region set
          rw [Ne, not_not] at hopen
          rw [stepTrackMsg_return_closed ls _ m hm hc hr hopen]
          refine ⟨?_, ?_, ?_, ?_, ?_⟩
          · simp only [hlen, hmul, ih1]
          · simp [haf, hr, hopen]
          · intro h; simp [hopen] at h
          · intro r hr'
            obtain ⟨⟨i, mi, h1, h2, h3, h4⟩, ⟨j, mj, h5, h6, h7⟩, h8⟩ :=
              ih4 r hr'
            exact ⟨⟨i, mi, hlift i mi h1, h2, h3, h4⟩,
              ⟨j, mj, hlift j mj h5, h6, h7⟩, h8⟩
          · intro i mi h hci
            rcases hidx i mi h with ⟨hlt, hq⟩ | ⟨rfl, rfl⟩
            · rcases ih5 i mi hq hci with ⟨r, hr', hprop⟩ | ⟨ho1, _⟩
              · exact Or.inl ⟨r, hr', hprop⟩
              · rw [hopen] at ho1
                exact absurd ho1.symm (truthyS_getD_ne _ hci)
            · rw [hci] at hc
              exact absurd hc (by simp)
      · -- an ordinary message
        replace hr : truthyS m.returns_to_track = false := by simpa using hr
        rw [stepTrackMsg_none ls _ m hm hc hr]
        refine ⟨?_, ?_, ?_, ?_, ?_⟩
        · simp only [hlen, hmul, ih1]
        · simpa [haf, hr, hc] using ih2
        · intro h
          obtain ⟨i, mi, h1, h2, h3, h4, h5⟩ := ih3 (by simpa using h)
          refine ⟨i, mi, hlift i mi h1, h2, h3, by simpa using h4, ?_⟩
          simp only []
          omega
        · intro r hr'
          obtain ⟨⟨i, mi, h1, h2, h3, h4⟩, ⟨j, mj, h5, h6, h7⟩, h8⟩ :=
            ih4 r hr'
          exact ⟨⟨i, mi, hlift i mi h1, h2, h3, h4⟩,
            ⟨j, mj, hlift j mj h5, h6, h7⟩, h8⟩
        · intro i mi h hci
          rcases hidx i mi h with ⟨hlt, hq⟩ | ⟨rfl, rfl⟩
          · rcases ih5 i mi hq hci with ⟨r, hr', hprop⟩ | ⟨ho1, ho2⟩
            · exact Or.inl ⟨r, hr', hprop⟩
            · exact Or.inr ⟨by simpa using ho1, by simpa using ho2⟩
          · rw [hci] at hc
            exact absurd hc (by simp)

theorem closeTrack_currentRegion (st : TrackState) :
    (closeTrack st).currentRegion = "" := by
  unfold closeTrack
  by_cases h : st.currentRegion ≠ ""
  · rw [if_pos h]
  · rw [if_neg h]
    rw [Ne, not_not] at h
    exact h

theorem closeTrack_rendered (st : TrackState) :
    (closeTrack st).rendered = st.rendered := by
  unfold closeTrack
  by_cases h : st.currentRegion ≠ ""
  · rw [if_pos h]
  · rw [if_neg h]

/-- C3: for a track whose messages all reference registered lifelines and
whose spawn/join flags alternate (as assembled message sequences do): after
rendering the track no region remains open; every rendered region opens at
the y position of a message flagged `creates_track` carrying the region's
track name, closes either one message height below a message flagged
`returns_to_track` or — for a spawn with no matching join — at the end of
the track (just below the last rendered message), and has positive extent;
and every spawn message gets a rendered region opening exactly at its own
y position. -/
theorem async_track_regions (ls : List String) (y0 : Nat)
    (msgs : List AMessage)
    (hlife : ∀ m ∈ msgs, m.fromName ∈ ls ∧ m.toName ∈ ls)
    (halt : altOK false msgs = true) :
    (renderTrack ls y0 msgs).currentRegion = ""
    ∧ (∀ r ∈ (renderTrack ls y0 msgs).regions,
        (∃ i mi, msgs[i]? = some mi ∧ truthyS mi.creates_track = true
          ∧ mi.creates_track.getD "" = r.name
          ∧ r.startY = y0 + messageHeight * i)
        ∧ ((∃ j mj, msgs[j]? = some mj ∧ truthyS mj.returns_to_track = true
              ∧ r.endY = y0 + messageHeight * (j + 1))
            ∨ r.endY = y0 + messageHeight * msgs.length)
        ∧ r.startY < r.endY)
    ∧ (∀ i mi, msgs[i]? = some mi → truthyS mi.creates_track = true →
        ∃ r ∈ (renderTrack ls y0 msgs).regions,
          r.startY = y0 + messageHeight * i
            ∧ r.name = mi.creates_track.getD "") := by
  obtain ⟨ih1, ih2, ih3, ih4, ih5⟩ := trackLoop_inv ls y0 msgs hlife halt
  have hmh : 0 < messageHeight := by decide
  refine ⟨closeTrack_currentRegion _, ?_, ?_⟩
  · intro r hr
    unfold renderTrack closeTrack at hr
    by_cases hopen : (trackLoop ls y0 msgs).currentRegion ≠ ""
    · rw [if_pos hopen] at hr
      simp only [List.mem_append, List.mem_singleton] at hr
      rcases hr with hr | rfl
      · obtain ⟨⟨i, mi, h1, h2, h3, h4⟩, ⟨j, mj, h5, h6, h7⟩, h8⟩ := ih4 r hr
        exact ⟨⟨i, mi, h1, h2, h3, h4⟩, Or.inl ⟨j, mj, h5, h6, h7⟩, h8⟩
      · obtain ⟨i, mi, g1, g2, g3, g4, g5⟩ := ih3 hopen
        refine ⟨⟨i, mi, g1, g2, g3, g4⟩, Or.inr ?_, ?_⟩
        · simpa using ih1
        · show (trackLoop ls y0 msgs).regionStartY
            < (trackLoop ls y0 msgs).currentY
          omega
    · rw [if_neg hopen] at hr
      obtain ⟨⟨i, mi, h1, h2, h3, h4⟩, ⟨j, mj, h5, h6, h7⟩, h8⟩ := ih4 r hr
      exact ⟨⟨i, mi, h1, h2, h3, h4⟩, Or.inl ⟨j, mj, h5, h6, h7⟩, h8⟩
  · intro i mi h hci
    unfold renderTrack closeTrack
    by_cases hopen : (trackLoop ls y0 msgs).currentRegion ≠ ""
    · rw [if_pos hopen]
      rcases ih5 i mi h hci with ⟨r, hr, hp⟩ | ⟨ho1, ho2⟩
      · exact ⟨r, List.mem_append_left _ hr, hp⟩
      · refine ⟨_, List.mem_append_right _ (List.mem_singleton_self _), ?_, ?_⟩
        · simpa using ho2
        · simpa using ho1
    · rw [if_neg hopen]
      rcases ih5 i mi h hci with ⟨r, hr, hp⟩ | ⟨ho1, _⟩
      · exact ⟨r, hr, hp⟩
      · rw [Ne, not_not] at hopen
        rw [hopen] at ho1
        exact absurd ho1.symm (truthyS_getD_ne _ hci)

/-- Witness for C3 at a concrete spawn/join pair. -/
theorem async_track_regions_witness :
    (renderTrack lifelinesSample 100 trackMsgsSample).currentRegion = ""
      ∧ ∃ r ∈ (renderTrack lifelinesSample 100 trackMsgsSample).regions,
          r.startY = 100 + messageHeight * 0
            ∧ r.name = spawnMsgSample.creates_track.getD "" :=
  ⟨(async_track_regions lifelinesSample 100 trackMsgsSample (by decide)
      (by decide)).1,
   (async_track_regions lifelinesSample 100 trackMsgsSample (by decide)
      (by decide)).2.2 0 spawnMsgSample (by decide) (by decide)⟩

theorem stepTrackMsg_rendered (ls : List String) (st : TrackState)
    (m : AMessage) :
    (stepTrackMsg ls st m).rendered
      = if m.fromName ∈ ls ∧ m.toName ∈ ls then st.rendered ++ [m]
        else st.rendered := by
  by_cases hp : m.fromName ∈ ls ∧ m.toName ∈ ls
  · rw [if_pos hp]
    by_cases hc : truthyS m.creates_track = true
    · by_cases hr : truthyS m.returns_to_track = true
      · rw [stepTrackMsg_create_return ls st m hp hc hr]
      · rw [stepTrackMsg_create ls st m hp hc (by simpa using hr)]
    · replace hc : truthyS m.creates_track = false := by simpa using hc
      by_cases hr : truthyS m.returns_to_track = true
      · by_cases ho : st.currentRegion ≠ ""
        · rw [stepTrackMsg_return_open ls st m hp hc hr ho]
        · rw [stepTrackMsg_return_closed ls st m hp hc hr
            (by rwa [Ne, not_not] at ho)]
      · rw [stepTrackMsg_none ls st m hp hc (by simpa using hr)]
  · rw [if_neg hp, stepTrackMsg_skip ls st m hp]

theorem trackLoop_rendered_aux (ls : List String) (msgs : List AMessage) :
    ∀ st : TrackState,
      (msgs.foldl (stepTrackMsg ls) st).rendered
        = st.rendered ++ msgs.filter (fun m =>
            decide (m.fromName ∈ ls) && decide (m.toName ∈ ls)) := by
  induction msgs with
  | nil => intro st; simp
  | cons m r ih =>
    intro st
    simp only [List.foldl_cons, List.filter_cons]
    rw [ih, stepTrackMsg_rendered]
    by_cases hp : m.fromName ∈ ls ∧ m.toName ∈ ls
    · rw [if_pos hp]
      have hb : (decide (m.fromName ∈ ls) && decide (m.toName ∈ ls)) = true := by
        simp [hp.1, hp.2]
      rw [hb]
      simp
    · rw [if_neg hp]
      have hb : (decide (m.fromName ∈ ls) && decide (m.toName ∈ ls)) = false := by
        rcases not_and_or.mp hp with h | h <;> simp [h]
      rw [hb]
      simp

/-- C8: the renderers skip unknown references and render everything else.
The conditional renderer renders exactly the messages whose `from` and `to`
lifelines are registered, in input order; it renders exactly the blocks
both of whose endpoint message ids have a recorded position (so a block
referencing a skipped or unknown message is dropped); and the async
renderer's track loop likewise renders exactly the messages with
registered lifelines.  All three loops are total functions of their input,
so a skipped element never aborts rendering of the rest. -/
theorem renderers_skip_unknown :
    (∀ (ps : List String) (msgs : List CMessage) (y : Nat),
        (renderCondMsgs ps msgs y).map Prod.fst
          = (msgs.filter (fun m =>
              decide (m.fromName ∈ ps) && decide (m.toName ∈ ps))).map
                CMessage.id)
    ∧ (∀ (positions : List (String × Nat)) (blocks : List CBlock)
          (b : CBlock),
        b ∈ renderCondBlocks positions blocks
          ↔ b ∈ blocks
              ∧ (posLookup positions b.start_message_id).isSome = true
              ∧ (posLookup positions b.end_message_id).isSome = true)
    ∧ (∀ (ls : List String) (y0 : Nat) (msgs : List AMessage),
        (renderTrack ls y0 msgs).rendered
          = msgs.filter (fun m =>
              decide (m.fromName ∈ ls) && decide (m.toName ∈ ls))) := by
  refine ⟨?_, ?_, ?_⟩
  · intro ps msgs
    induction msgs with
    | nil => intro y; rfl
    | cons m r ih =>
      intro y
      simp only [renderCondMsgs, List.filter_cons]
      by_cases hp : m.fromName ∈ ps ∧ m.toName ∈ ps
      · have hb : (decide (m.fromName ∈ ps) && decide (m.toName ∈ ps)) = true := by
          simp [hp.1, hp.2]
        rw [if_pos hp, hb]
        simp only [if_true, List.map_cons]
        rw [ih]
      · have hb : (decide (m.fromName ∈ ps) && decide (m.toName ∈ ps)) = false := by
          rcases not_and_or.mp hp with h | h <;> simp [h]
        rw [if_neg hp, hb]
        simpa using ih y
  · intro positions blocks b
    unfold renderCondBlocks
    rw [List.mem_filter]
    simp [Bool.and_eq_true]
  · intro ls y0 msgs
    unfold renderTrack trackLoop
    rw [closeTrack_rendered, trackLoop_rendered_aux]
    rfl

/-- C9 counterexample: an error response whose body has a `detail` field
that is present but empty throws the fallback message, not the (empty)
detail — `error.detail || fallback` tests truthiness, not presence. -/
theorem service_error_detail_cex :
    getRepositoryStructure (fun d : Option String => d)
        { ok := false, statusText := "Not Found",
          json := Except.ok (some "") }
      = Except.error "Failed to fetch repository structure: Not Found"
    ∧ ("Failed to fetch repository structure: Not Found" : String) ≠ "" :=
  ⟨rfl, by decide⟩

/-- C9 amended: both service calls return the `response.json()` outcome
unchanged exactly when the response is ok (so the parsed body whenever it
parses); on a non-ok response they throw the body's `detail` field when it
is present and non-empty, and otherwise — detail absent, detail empty, or
body unparseable — the per-call fallback message containing
`statusText`. -/
theorem service_error_handling :
    (∀ (α : Type) (detailOf : α → Option String) (resp : FetchResponse α),
        resp.ok = true →
          getRepositoryStructure detailOf resp = resp.json
            ∧ getRepositoryDependencies detailOf resp = resp.json)
    ∧ (∀ (α : Type) (detailOf : α → Option String) (resp : FetchResponse α)
          (v : α) (d : String),
        resp.ok = false → resp.json = Except.ok v → detailOf v = some d →
        d ≠ "" →
          getRepositoryStructure detailOf resp = Except.error d
            ∧ getRepositoryDependencies detailOf resp = Except.error d)
    ∧ (∀ (α : Type) (detailOf : α → Option String) (resp : FetchResponse α)
          (v : α),
        resp.ok = false → resp.json = Except.ok v →
        (detailOf v = none ∨ detailOf v = some "") →
          getRepositoryStructure detailOf resp
              = Except.error
                  ("Failed to fetch repository structure: " ++ resp.statusText)
            ∧ getRepositoryDependencies detailOf resp
              = Except.error
                  ("Failed to fetch repository dependencies: "
                    ++ resp.statusText))
    ∧ (∀ (α : Type) (detailOf : α → Option String) (resp : FetchResponse α)
          (msg : String),
        resp.ok = false → resp.json = Except.error msg →
          getRepositoryStructure detailOf resp
              = Except.error
                  ("Failed to fetch repository structure: " ++ resp.statusText)
            ∧ getRepositoryDependencies detailOf resp
              = Except.error
                  ("Failed to fetch repository dependencies: "
                    ++ resp.statusText)) := by
  refine ⟨?_, ?_, ?_, ?_⟩
  · intro α detailOf resp hok
    constructor <;>
      simp [getRepositoryStructure, getRepositoryDependencies,
        handleServiceResponse, hok]
  · intro α detailOf resp v d hok hj hd hne
    have hie : d.isEmpty = false := by
      rw [← Bool.not_eq_true]
      intro h
      exact hne ((String.isEmpty_iff d).mp h)
    constructor <;>
      simp [getRepositoryStructure, getRepositoryDependencies,
        handleServiceResponse, hok, hj, detailOrFallback, hd, hie]
  · intro α detailOf resp v hok hj hd
    have hemp : ("" : String).isEmpty = true := by decide
    rcases hd with hd | hd <;>
      constructor <;>
        simp [getRepositoryStructure, getRepositoryDependencies,
          handleServiceResponse, hok, hj, detailOrFallback, hd, hemp]
  · intro α detailOf resp msg hok hj
    constructor <;>
      simp [getRepositoryStructure, getRepositoryDependencies,
        handleServiceResponse, hok, hj, detailOrFallback]

/-- Witness for C9 amended at concrete responses. -/
theorem service_error_handling_witness :
    (getRepositoryStructure (fun d : Option String => d)
        { ok := true, statusText := "OK", json := Except.ok (some "body") }
      = Except.ok (some "body"))
    ∧ (getRepositoryStructure (fun d : Option String => d)
          { ok := false, statusText := "Not Found",
            json := Except.ok (some "Repository not found") }
        = Except.error "Repository not found")
    ∧ (getRepositoryDependencies (fun d : Option String => d)
          { ok := false, statusText := "Bad Gateway",
            json := Except.error "invalid json" }
        = Except.error
            "Failed to fetch repository dependencies: Bad Gateway") :=
  ⟨(service_error_handling.1 (Option String) (fun d => d)
      { ok := true, statusText := "OK", json := Except.ok (some "body") }
      rfl).1,
   (service_error_handling.2.1 (Option String) (fun d => d)
      { ok := false, statusText := "Not Found",
        json := Except.ok (some "Repository not found") }
      (some "Repository not found") "Repository not found" rfl rfl rfl
      (by decide)).1,
   (service_error_handling.2.2.2 (Option String) (fun d => d)
      { ok := false, statusText := "Bad Gateway",
        json := Except.error "invalid json" }
      "invalid json" rfl rfl).2⟩

/-- C10: a search term that trims to nothing (empty or whitespace-only)
yields an empty result list; any other term yields exactly the nodes whose
lower-cased name or path contains the lower-cased term, keeping the input
order (the result is a sublist of the input). -/
theorem tree_search_filter :
    (∀ (nodes : List SNode) (term : List Char),
        trim term = [] → performSearch nodes term = [])
    ∧ (∀ (nodes : List SNode) (term : List Char), trim term ≠ [] →
        performSearch nodes term = nodes.filter (nodeMatches term))
    ∧ (∀ (nodes : List SNode) (term : List Char) (n : SNode),
        n ∈ performSearch nodes term
          ↔ trim term ≠ [] ∧ n ∈ nodes ∧ nodeMatches term n = true)
    ∧ (∀ (nodes : List SNode) (term : List Char),
        (performSearch nodes term).Sublist nodes) := by
  refine ⟨?_, ?_, ?_, ?_⟩
  · intro nodes term h
    simp [performSearch, List.isEmpty_iff, h]
  · intro nodes term h
    simp [performSearch, List.isEmpty_iff, h]
  · intro nodes term n
    by_cases h : trim term = []
    · simp [performSearch, List.isEmpty_iff, h]
    · simp [performSearch, List.isEmpty_iff, h, List.mem_filter]
  · intro nodes term
    unfold performSearch
    by_cases h : (trim term).isEmpty = true
    · rw [if_pos h]
      exact List.nil_sublist nodes
    · rw [if_neg h]
      exact List.filter_sublist nodes

/-- Witness for C10: a matching node is found case-insensitively, and a
whitespace-only term returns nothing. -/
theorem tree_search_filter_witness :
    performSearch [nodeSample] "main".toList = [nodeSample]
      ∧ performSearch [nodeSample] "  ".toList = [] :=
  ⟨by
     rw [tree_search_filter.2.1 [nodeSample] "main".toList (by decide)]
     decide,
   tree_search_filter.1 [nodeSample] "  ".toList (by decide)⟩

theorem adjE_mem {es : List (String × String)} {u v : String}
    (h : adjE es u v = true) : (u, v) ∈ es := by
  simpa [adjE] using h

theorem walk_split (es : List (String × String)) (x : String) :
    ∀ (l1 l2 : List String) (u v : String),
      isWalk es u (l1 ++ x :: l2) v ↔ isWalk es u l1 x ∧ isWalk es x l2 v := by
  intro l1
  induction l1 with
  | nil =>
    intro l2 u v
    simp only [List.nil_append, isWalk]
  | cons a l1 ih =>
    intro l2 u v
    simp only [List.cons_append, isWalk, List.append_eq, ih, and_assoc]

theorem sublist_pair_split {x : String} :
    ∀ l : List String, [x, x].Sublist l →
      ∃ l1 l2 l3, l = l1 ++ x :: (l2 ++ x :: l3) := by
  intro l
  induction l with
  | nil => intro h; simp at h
  | cons a t ih =>
    intro h
    cases h with
    | cons b h' =>
      obtain ⟨l1, l2, l3, rfl⟩ := ih h'
      exact ⟨a :: l1, l2, l3, rfl⟩
    | cons₂ b h' =>
      have hx : x ∈ t := List.singleton_sublist.mp h'
      obtain ⟨l2, l3, rfl⟩ := List.append_of_mem hx
      exact ⟨[], l2, l3, rfl⟩

theorem walk_shorten (es : List (String × String)) :
    ∀ (n : Nat) (u : String) (l : List String) (v : String),
      l.length ≤ n → isWalk es u l v →
      ∃ l', isWalk es u l' v ∧ l'.Nodup ∧ l' ⊆ l := by
  intro n
  induction n with
  | zero =>
    intro u l v hl hw
    have : l = [] := List.eq_nil_of_length_eq_zero (Nat.le_zero.mp hl)
    subst this
    exact ⟨[], hw, List.nodup_nil, by simp⟩
  | succ n ih =>
    intro u l v hl hw
    by_cases hnd : l.Nodup
    · exact ⟨l, hw, hnd, fun _ h => h⟩
    · obtain ⟨x, hdup⟩ := List.exists_duplicate_iff_not_nodup.mpr hnd
      have hsub := List.duplicate_iff_sublist.mp hdup
      obtain ⟨l1, l2, l3, rfl⟩ := sublist_pair_split _ hsub
      have hw' : isWalk es u (l1 ++ x :: l3) v := by
        rw [walk_split es x l1 (l2 ++ x :: l3)] at hw
        obtain ⟨ha, hb⟩ := hw
        rw [walk_split es x l2 l3] at hb
        exact (walk_split es x l1 l3 u v).mpr ⟨ha, hb.2⟩
      have hlen : (l1 ++ x :: l3).length ≤ n := by
        simp only [List.length_append, List.length_cons] at hl ⊢
        omega
      obtain ⟨l', hwr, hndr, hsubr⟩ := ih u (l1 ++ x :: l3) v hlen hw'
      refine ⟨l', hwr, hndr, ?_⟩
      intro a ha
      have := hsubr ha
      simp only [List.mem_append, List.mem_cons] at this ⊢
      tauto

theorem walk_mem_ns {ns : List String} {es : List (String × String)}
    (hcl : edgesClosed ns es = true) :
    ∀ (l : List String) (u v : String), isWalk es u l v → ∀ x ∈ l, x ∈ ns := by
  intro l
  induction l with
  | nil => intro u v _ x hx; simp at hx
  | cons w l ih =>
    intro u v hw x hx
    obtain ⟨ha, hw'⟩ := hw
    rcases List.mem_cons.mp hx with rfl | hx'
    · have hmem := adjE_mem ha
      simp only [edgesClosed, List.all_eq_true, Bool.and_eq_true,
        decide_eq_true_eq] at hcl
      exact (hcl _ hmem).2
    · exact ih w v hw' x hx'

theorem nodup_subset_length (l' ns : List String) (hnd : l'.Nodup)
    (hsub : l' ⊆ ns) : l'.length ≤ ns.length := by
  have h1 : l'.toFinset.card = l'.length := List.toFinset_card_of_nodup hnd
  have h2 : l'.toFinset ⊆ ns.toFinset := fun a ha =>
    List.mem_toFinset.mpr (hsub (List.mem_toFinset.mp ha))
  calc l'.length = l'.toFinset.card := h1.symm
    _ ≤ ns.toFinset.card := Finset.card_le_card h2
    _ ≤ ns.length := List.toFinset_card_le ns

theorem reachN_succ (es : List (String × String)) (ns : List String)
    (n : Nat) (u v : String) :
    reachN es ns (n + 1) u v
      = (adjE es u v
          || ns.any (fun w => adjE es u w && reachN es ns n w v)) := rfl

theorem reachN_mono (es : List (String × String)) (ns : List String) :
    ∀ (n : Nat) (u v : String),
      reachN es ns n u v = true → reachN es ns (n + 1) u v = true := by
  intro n
  induction n with
  | zero => intro u v h; simp [reachN] at h
  | succ n ih =>
    intro u v h
    rw [reachN_succ] at h
    rw [reachN_succ]
    simp only [Bool.or_eq_true, List.any_eq_true, Bool.and_eq_true] at h ⊢
    rcases h with h | ⟨w, hw, ha, hr⟩
    · exact Or.inl h
    · exact Or.inr ⟨w, hw, ha, ih w v hr⟩

theorem reachN_le (es : List (String × String)) (ns : List String)
    (u v : String) {n m : Nat} (hnm : n ≤ m)
    (h : reachN es ns n u v = true) : reachN es ns m u v = true := by
  induction hnm with
  | refl => exact h
  | step _ ih => exact reachN_mono es ns _ u v ih

theorem walk_reachN (es : List (String × String)) (ns : List String) :
    ∀ (l : List String) (u v : String),
      isWalk es u l v → (∀ x ∈ l, x ∈ ns) →
      reachN es ns (l.length + 1) u v = true := by
  intro l
  induction l with
  | nil =>
    intro u v hw _
    rw [List.length_nil, reachN_succ]
    simp only [Bool.or_eq_true]
    exact Or.inl hw
  | cons w l ih =>
    intro u v hw hn
    obtain ⟨ha, hw'⟩ := hw
    rw [List.length_cons, reachN_succ]
    simp only [Bool.or_eq_true, List.any_eq_true, Bool.and_eq_true]
    refine Or.inr ⟨w, hn w (List.mem_cons_self w l), ha, ?_⟩
    exact ih w v hw' (fun x hx => hn x (List.mem_cons_of_mem _ hx))

theorem reachN_walk (es : List (String × String)) (ns : List String) :
    ∀ (n : Nat) (u v : String), reachN es ns n u v = true →
      Reaches es u v := by
  intro n
  induction n with
  | zero => intro u v h; simp [reachN] at h
  | succ n ih =>
    intro u v h
    rw [reachN_succ] at h
    simp only [Bool.or_eq_true, List.any_eq_true, Bool.and_eq_true] at h
    rcases h with h | ⟨w, _, ha, hr⟩
    · exact ⟨[], h⟩
    · obtain ⟨l, hw⟩ := ih w v hr
      exact ⟨w :: l, ha, hw⟩

theorem reachB_iff {ns : List String} {es : List (String × String)}
    (hcl : edgesClosed ns es = true) (u v : String) :
    reachB ns es u v = true ↔ Reaches es u v := by
  constructor
  · exact reachN_walk es ns (ns.length + 1) u v
  · rintro ⟨l, hw⟩
    obtain ⟨l', hw', hnd, hsub⟩ := walk_shorten es l.length u l v (le_refl _) hw
    have hns : ∀ x ∈ l', x ∈ ns :=
      fun x hx => walk_mem_ns hcl l u v hw x (hsub hx)
    have hlen : l'.length ≤ ns.length :=
      nodup_subset_length l' ns hnd (fun _ hx => hns _ hx)
    have := walk_reachN es ns l' u v hw' hns
    exact reachN_le es ns u v (by omega) this

theorem Reaches_trans {es : List (String × String)} {u v w : String}
    (h1 : Reaches es u v) (h2 : Reaches es v w) : Reaches es u w := by
  obtain ⟨l1, hw1⟩ := h1
  obtain ⟨l2, hw2⟩ := h2
  exact ⟨l1 ++ v :: l2, (walk_split es v l1 l2 u w).mpr ⟨hw1, hw2⟩⟩

theorem MutualP_symm {es : List (String × String)} {u v : String}
    (h : MutualP es u v) : MutualP es v u :=
  ⟨h.2, h.1⟩

theorem MutualP_trans {es : List (String × String)} {u v w : String}
    (h1 : MutualP es u v) (h2 : MutualP es v w) : MutualP es u w :=
  ⟨Reaches_trans h1.1 h2.1, Reaches_trans h2.2 h1.2⟩

theorem mutualB_iff {ns : List String} {es : List (String × String)}
    (hcl : edgesClosed ns es = true) (u v : String) :
    mutualB ns es u v = true ↔ MutualP es u v := by
  simp only [mutualB, Bool.and_eq_true, reachB_iff hcl, MutualP]

theorem inCyc_iff {ns : List String} {es : List (String × String)}
    (hcl : edgesClosed ns es = true) (u : String) :
    inCyc ns es u = true
      ↔ (adjE es u u = true ∨ ∃ v ∈ ns, v ≠ u ∧ MutualP es u v) := by
  simp only [inCyc, Bool.or_eq_true, List.any_eq_true, Bool.and_eq_true,
    decide_eq_true_eq, mutualB_iff hcl]

theorem mem_sccOf {ns : List String} {es : List (String × String)}
    (hcl : edgesClosed ns es = true) (r x : String) :
    x ∈ sccOf ns es r ↔ x ∈ ns ∧ (x = r ∨ MutualP es r x) := by
  simp only [sccOf, List.mem_filter, Bool.or_eq_true, decide_eq_true_eq,
    mutualB_iff hcl]

theorem bool_eq_of_iff {a b : Bool} (h : a = true ↔ b = true) : a = b := by
  cases a <;> cases b <;> simp_all

theorem sccOf_congr {ns : List String} {es : List (String × String)}
    (hcl : edgesClosed ns es = true) {r r' : String}
    (h : MutualP es r r') : sccOf ns es r = sccOf ns es r' := by
  unfold sccOf
  apply List.filter_congr
  intro x _
  apply bool_eq_of_iff
  simp only [Bool.or_eq_true, decide_eq_true_eq, mutualB_iff hcl]
  constructor
  · rintro (rfl | hm)
    · exact Or.inr (MutualP_symm h)
    · exact Or.inr (MutualP_trans (MutualP_symm h) hm)
  · rintro (rfl | hm)
    · exact Or.inr h
    · exact Or.inr (MutualP_trans h hm)

theorem sccOf_eq_of_common {ns : List String} {es : List (String × String)}
    (hcl : edgesClosed ns es = true) {r r' u : String}
    (h1 : u = r ∨ MutualP es r u) (h2 : u = r' ∨ MutualP es r' u) :
    sccOf ns es r = sccOf ns es r' := by
  rcases h1 with rfl | h1
  · rcases h2 with rfl | h2
    · rfl
    · exact sccOf_congr hcl (MutualP_symm h2)
  · rcases h2 with rfl | h2
    · exact sccOf_congr hcl h1
    · exact sccOf_congr hcl (MutualP_trans h1 (MutualP_symm h2))

theorem cyclesAux_acc_sub (ns : List String) (es : List (String × String)) :
    ∀ (rem : List String) (acc : List (List String)),
      ∀ c ∈ acc, c ∈ cyclesAux ns es rem acc := by
  intro rem
  induction rem with
  | nil => intro acc c hc; exact hc
  | cons u rest ih =>
    intro acc c hc
    simp only [cyclesAux]
    by_cases hg :
        (inCyc ns es u && !(acc.any fun c => decide (u ∈ c))) = true
    · rw [if_pos hg]
      exact ih _ c (List.mem_append_left _ hc)
    · rw [if_neg hg]
      exact ih _ c hc

theorem cyclesAux_shape (ns : List String) (es : List (String × String)) :
    ∀ (rem : List String) (acc : List (List String)),
      (∀ c ∈ acc, ∃ r, r ∈ ns ∧ inCyc ns es r = true ∧ c = sccOf ns es r) →
      rem ⊆ ns →
      ∀ c ∈ cyclesAux ns es rem acc,
        ∃ r, r ∈ ns ∧ inCyc ns es r = true ∧ c = sccOf ns es r := by
  intro rem
  induction rem with
  | nil => intro acc hacc _ c hc; exact hacc c hc
  | cons u rest ih =>
    intro acc hacc hsub c hc
    simp only [cyclesAux] at hc
    by_cases hg :
        (inCyc ns es u && !(acc.any fun c => decide (u ∈ c))) = true
    · rw [if_pos hg] at hc
      refine ih _ ?_ (fun x hx => hsub (List.mem_cons_of_mem _ hx)) c hc
      intro c' hc'
      rcases List.mem_append.mp hc' with h | h
      · exact hacc c' h
      · rcases List.mem_singleton.mp h with rfl
        exact ⟨u, hsub (List.mem_cons_self u rest),
          (Bool.and_eq_true_iff.mp hg).1, rfl⟩
    · rw [if_neg hg] at hc
      exact ih _ hacc (fun x hx => hsub (List.mem_cons_of_mem _ hx)) c hc

theorem cyclesAux_exists (ns : List String) (es : List (String × String)) :
    ∀ (rem : List String) (acc : List (List String)),
      rem ⊆ ns →
      ∀ u ∈ rem, inCyc ns es u = true →
        ∃ c ∈ cyclesAux ns es rem acc, u ∈ c := by
  intro rem
  induction rem with
  | nil => intro acc _ u hu; simp at hu
  | cons v rest ih =>
    intro acc hsub u hu hcyc
    rcases List.mem_cons.mp hu with rfl | hur
    · simp only [cyclesAux]
      by_cases hg :
          (inCyc ns es u && !(acc.any fun c => decide (u ∈ c))) = true
      · rw [if_pos hg]
        refine ⟨sccOf ns es u,
          cyclesAux_acc_sub ns es rest _ _
            (List.mem_append_right _ (List.mem_singleton_self _)), ?_⟩
        simp [sccOf, List.mem_filter, hsub (List.mem_cons_self u rest)]
      · rw [if_neg hg]
        have hcov : (acc.any fun c => decide (u ∈ c)) = true := by
          rcases Bool.eq_false_or_eq_true
              (acc.any fun c => decide (u ∈ c)) with ht | hf
          · exact ht
          · exact absurd (by rw [hcyc, hf]; rfl) hg
        simp only [List.any_eq_true, decide_eq_true_eq] at hcov
        obtain ⟨c, hcacc, huc⟩ := hcov
        exact ⟨c, cyclesAux_acc_sub ns es rest acc c hcacc, huc⟩
    · simp only [cyclesAux]
      by_cases hg :
          (inCyc ns es v && !(acc.any fun c => decide (v ∈ c))) = true
      · rw [if_pos hg]
        exact ih _ (fun x hx => hsub (List.mem_cons_of_mem _ hx)) u hur hcyc
      · rw [if_neg hg]
        exact ih _ (fun x hx => hsub (List.mem_cons_of_mem _ hx)) u hur hcyc

theorem cyclesAux_sublist (ns : List String) (es : List (String × String)) :
    ∀ (rem : List String) (acc : List (List String)),
      (∀ c ∈ acc, c.Sublist ns) →
      ∀ c ∈ cyclesAux ns es rem acc, c.Sublist ns := by
  intro rem
  induction rem with
  | nil => intro acc hacc c hc; exact hacc c hc
  | cons u rest ih =>
    intro acc hacc c hc
    simp only [cyclesAux] at hc
    by_cases hg :
        (inCyc ns es u && !(acc.any fun c => decide (u ∈ c))) = true
    · rw [if_pos hg] at hc
      refine ih _ ?_ c hc
      intro c' hc'
      rcases List.mem_append.mp hc' with h | h
      · exact hacc c' h
      · rcases List.mem_singleton.mp h with rfl
        exact List.filter_sublist ns
    · rw [if_neg hg] at hc
      exact ih _ hacc c hc

/-- C7: on the synthetic graph `A→B→C→A` the detector yields exactly one
Cycle, the list `["A","B","C"]` of length 3; on `A→B→C` with no return
edge it yields no cycles.  In general, over any internal-edge-only graph
whose edges stay within the node list: a node has a reported Cycle
containing it exactly when it has a self-loop or shares an SCC with
another node; the Cycle containing a node consists precisely of that
node's SCC members, listed in node discovery order (each reported Cycle is
a sublist of the node list, so unchanged input reproduces identical
output); and any two reported Cycles sharing a node are equal — each SCC
is reported as one Cycle. -/
theorem dependency_cycles :
    (detectCycles nodesSample edgesCycleSample = [["A", "B", "C"]])
    ∧ (detectCycles nodesSample edgesChainSample = [])
    ∧ (∀ (ns : List String) (es : List DepEdge),
        edgesClosed ns (internalPairs es) = true →
        ∀ u ∈ ns,
          ((adjE (internalPairs es) u u = true
              ∨ ∃ v ∈ ns, v ≠ u ∧ MutualP (internalPairs es) u v)
            ↔ ∃ c ∈ detectCycles ns es, u ∈ c))
    ∧ (∀ (ns : List String) (es : List DepEdge),
        edgesClosed ns (internalPairs es) = true →
        ∀ (u : String), ∀ c ∈ detectCycles ns es, u ∈ c →
          ∀ v, v ∈ c ↔ v ∈ ns ∧ (v = u ∨ MutualP (internalPairs es) u v))
    ∧ (∀ (ns : List String) (es : List DepEdge),
        edgesClosed ns (internalPairs es) = true →
        ∀ (u : String), ∀ c1 ∈ detectCycles ns es, ∀ c2 ∈ detectCycles ns es,
          u ∈ c1 → u ∈ c2 → c1 = c2)
    ∧ (∀ (ns : List String) (es : List DepEdge),
        ∀ c ∈ detectCycles ns es, c.Sublist ns) := by
  refine ⟨by decide, by decide, ?_, ?_, ?_, ?_⟩
  · intro ns es hcl u hu
    constructor
    · intro h
      exact cyclesAux_exists ns (internalPairs es) ns [] (fun _ h => h) u hu
        ((inCyc_iff hcl u).mpr h)
    · rintro ⟨c, hc, huc⟩
      obtain ⟨r, hrns, hrc, rfl⟩ :=
        cyclesAux_shape ns (internalPairs es) ns [] (by simp)
          (fun _ h => h) c hc
      obtain ⟨_, hur⟩ := (mem_sccOf hcl r u).mp huc
      rcases hur with rfl | hm
      · exact (inCyc_iff hcl u).mp hrc
      · by_cases hru : r = u
        · subst hru
          exact (inCyc_iff hcl r).mp hrc
        · exact Or.inr ⟨r, hrns, hru, MutualP_symm hm⟩
  · intro ns es hcl u c hc huc v
    obtain ⟨r, hrns, hrc, rfl⟩ :=
      cyclesAux_shape ns (internalPairs es) ns [] (by simp)
        (fun _ h => h) c hc
    obtain ⟨_, hur⟩ := (mem_sccOf hcl r u).mp huc
    rw [mem_sccOf hcl]
    rcases hur with rfl | hm
    · rfl
    · constructor
      · rintro ⟨hvns, rfl | hv⟩
        · exact ⟨hvns, Or.inr (MutualP_symm hm)⟩
        · exact ⟨hvns, Or.inr (MutualP_trans (MutualP_symm hm) hv)⟩
      · rintro ⟨hvns, rfl | hv⟩
        · exact ⟨hvns, Or.inr hm⟩
        · exact ⟨hvns, Or.inr (MutualP_trans hm hv)⟩
  · intro ns es hcl u c1 hc1 c2 hc2 hu1 hu2
    obtain ⟨r1, _, _, rfl⟩ :=
      cyclesAux_shape ns (internalPairs es) ns [] (by simp)
        (fun _ h => h) c1 hc1
    obtain ⟨r2, _, _, rfl⟩ :=
      cyclesAux_shape ns (internalPairs es) ns [] (by simp)
        (fun _ h => h) c2 hc2
    exact sccOf_eq_of_common hcl ((mem_sccOf hcl r1 u).mp hu1).2
      ((mem_sccOf hcl r2 u).mp hu2).2
  · intro ns es c hc
    exact cyclesAux_sublist ns (internalPairs es) ns [] (by simp) c hc

/-- Witness for C7 at the synthetic three-node cycle. -/
theorem dependency_cycles_witness :
    ((adjE (internalPairs edgesCycleSample) "A" "A" = true
        ∨ ∃ v ∈ nodesSample, v ≠ "A"
            ∧ MutualP (internalPairs edgesCycleSample) "A" v)
      ↔ ∃ c ∈ detectCycles nodesSample edgesCycleSample, "A" ∈ c)
    ∧ (∀ v, v ∈ (["A", "B", "C"] : List String)
          ↔ v ∈ nodesSample
              ∧ (v = "A" ∨ MutualP (internalPairs edgesCycleSample) "A" v))
    ∧ (∀ c1 ∈ detectCycles nodesSample edgesCycleSample,
        ∀ c2 ∈ detectCycles nodesSample edgesCycleSample,
          "A" ∈ c1 → "A" ∈ c2 → c1 = c2) :=
  ⟨dependency_cycles.2.2.1 nodesSample edgesCycleSample (by decide) "A"
     (by decide),
   dependency_cycles.2.2.2.1 nodesSample edgesCycleSample (by decide) "A"
     ["A", "B", "C"] (by decide) (by decide),
   fun c1 hc1 c2 hc2 h1 h2 =>
     dependency_cycles.2.2.2.2.1 nodesSample edgesCycleSample (by decide)
       "A" c1 hc1 c2 hc2 h1 h2⟩

end RepoMind
